import Mathlib

/-!
Buffer overflow detector: a shallow embedding of `Detector.cpp`.

The program scans a C/C++ source file with `std::regex` patterns and collects
`VulnerabilityInfo` records.  This file embeds

* the fragment of ECMAScript regular expressions the program uses, with the
  backtracking (leftmost, greedy, ordered alternation) semantics of `std::regex`;
* `std::regex_search`, `std::regex_match` and the `std::smatch` accessors the
  program reads (`position`, `length`, `operator[]`, `suffix`);
* the class `BufferOverflowDetector` with its methods, as functions that pass
  the detector state and the outside world (files, output streams) explicitly.

Conventions.  A `std::string` is a `List Char`; one `Char` stands for one C++
`char`.  `size_t` and `int` values are natural numbers: no quantity of the
program exceeds the length of the scanned file, so no wrap-around is modelled.
A `while (std::regex_search(...))` loop is a function with a fuel argument that
returns `none` when the fuel runs out; the methods call it with more fuel than
the text has characters.
-/

namespace BufferOverflow

/-- A `std::string`. -/
abbrev Str := List Char

/-! ## Character classes -/

/-- The range test of a bracket expression such as `a-z`. -/
def inRange (lo hi c : Char) : Bool := decide (lo.toNat ≤ c.toNat) && decide (c.toNat ≤ hi.toNat)

/-- Class `[a-zA-Z0-9_]`; in the "C" locale also the class `\w` that `\b` consults. -/
def isWordChar (c : Char) : Bool :=
  inRange 'a' 'z' c || inRange 'A' 'Z' c || inRange '0' '9' c || c == '_'

/-- Class `\s` in the "C" locale: space, `\t`, `\n`, `\v`, `\f`, `\r`. -/
def isSpaceChar (c : Char) : Bool :=
  c == ' ' || c == '\t' || c == '\n' || c == '\x0b' || c == '\x0c' || c == '\r'

/-- Class `[0-9]`. -/
def isDigitChar (c : Char) : Bool := inRange '0' '9' c

/-- Class `[a-zA-Z_]`. -/
def isIdentStart (c : Char) : Bool := inRange 'a' 'z' c || inRange 'A' 'Z' c || c == '_'

/-- Negated one-character class `[^a]`. -/
def notChr (a : Char) (c : Char) : Bool := c != a

/-! ## Regular expressions -/

/-- The regular expressions the program builds.  Every quantified
subexpression of its patterns is either a character class (`star`) or an
optional group (`opt`). -/
inductive Regex where
  | eps : Regex
  | chr : Char → Regex
  | set : (Char → Bool) → Regex
  | wordBoundary : Regex
  | seq : Regex → Regex → Regex
  | alt : Regex → Regex → Regex
  | star : (Char → Bool) → Regex
  | opt : Regex → Regex
  | group : Nat → Regex → Regex

/-- A position of the matcher inside the searched range. `leftWord` tells
whether the character before the position is a word character; it is `false`
at the first position of the range, where `std::regex_search` (called without
`match_prev_avail`) does not look at the preceding character. `rest` is the
text from the position to the end of the range, `caps` the captures recorded
so far, the latest first. -/
structure Cursor where
  leftWord : Bool
  rest : Str
  caps : List (Nat × Str)
deriving DecidableEq, Repr

namespace Regex

/-- The cursor after consuming the character `x`, with `t` left to read. -/
def step (c : Cursor) (x : Char) (t : Str) : Cursor :=
  { leftWord := isWordChar x, rest := t, caps := c.caps }

/-- Whether the character at the position is a word character. -/
def rightWord : Str → Bool
  | [] => false
  | x :: _ => isWordChar x

/-- Greedy `p*`: the positions after each possible number of repetitions,
the longest first. -/
def starRun (p : Char → Bool) (caps : List (Nat × Str)) : Bool → Str → List Cursor
  | l, [] => [⟨l, [], caps⟩]
  | l, x :: t =>
    if p x then starRun p caps (isWordChar x) t ++ [⟨l, x :: t, caps⟩]
    else [⟨l, x :: t, caps⟩]

/-- All ways the expression matches at a cursor, in the order in which a
backtracking matcher tries them: the head is the match `std::regex` reports. -/
def run : Regex → Cursor → List Cursor
  | eps, c => [c]
  | chr a, c =>
    match c.rest with
    | x :: t => if x = a then [step c x t] else []
    | [] => []
  | set p, c =>
    match c.rest with
    | x :: t => if p x then [step c x t] else []
    | [] => []
  | wordBoundary, c => if c.leftWord != rightWord c.rest then [c] else []
  | seq a b, c => (run a c).flatMap (run b)
  | alt a b, c => run a c ++ run b c
  | star p, c => starRun p c.caps c.leftWord c.rest
  | opt a, c => run a c ++ [c]
  | group n a, c =>
    (run a c).map fun e =>
      { e with caps := (n, c.rest.take (c.rest.length - e.rest.length)) :: e.caps }

/-- A literal string. -/
def lit : Str → Regex
  | [] => eps
  | a :: t => seq (chr a) (lit t)

/-- Greedy `p+`. -/
def plus (p : Char → Bool) : Regex := seq (set p) (star p)

/-- Sequence of several expressions. -/
def cat : List Regex → Regex
  | [] => eps
  | [a] => a
  | a :: t => seq a (cat t)

/-- Alternation of several expressions, the first alternative tried first. -/
def alts : Regex → List Regex → Regex
  | a, [] => a
  | a, b :: t => alt a (alts b t)

end Regex

open Regex

/-- The part of `std::smatch` the program reads after a successful search. -/
structure MatchResult where
  /-- `matches.position()`: offset of the match from the start of the searched range. -/
  position : Nat
  /-- `matches.length()`. -/
  length : Nat
  /-- `matches[0]`. -/
  whole : Str
  /-- The capture groups that matched, the latest first. -/
  groups : List (Nat × Str)
  /-- The text after the match: `matches.suffix().first` up to the end of the range. -/
  suffix : Str
deriving DecidableEq, Repr

/-- `matches[n]` for `n ≥ 1`: the text of the group when it matched. -/
def MatchResult.sub (m : MatchResult) (n : Nat) : Option Str :=
  (m.groups.find? fun g => g.1 == n).map Prod.snd

/-- `std::string s = matches[n]`: an unmatched group converts to the empty string. -/
def MatchResult.str (m : MatchResult) (n : Nat) : Str := (m.sub n).getD []

/-- The match result for a match that starts at offset `n` of the searched
range, where `s` is left to read, and ends at the cursor `e`. -/
def mkMatch (n : Nat) (s : Str) (e : Cursor) : MatchResult :=
  { position := n
    length := s.length - e.rest.length
    whole := s.take (s.length - e.rest.length)
    groups := e.caps
    suffix := e.rest }

/-- The attempt of the matcher at the start offset `n` of the searched range,
where `s` is left to read and `l` tells whether a word character precedes. -/
def matchHere (re : Regex) (l : Bool) (n : Nat) (s : Str) : Option MatchResult :=
  (run re ⟨l, s, []⟩).head?.map (mkMatch n s)

/-- The search tries every start position from left to right, the end of the
range included. -/
def searchFrom (re : Regex) : Bool → Nat → Str → Option MatchResult
  | l, n, [] => matchHere re l n []
  | l, n, x :: t =>
    match matchHere re l n (x :: t) with
    | some m => some m
    | none => searchFrom re (isWordChar x) (n + 1) t

/-- The call `std::regex_search(first, last, matches, re)` over the range `s`. -/
def regex_search (re : Regex) (s : Str) : Option MatchResult := searchFrom re false 0 s

/-- The call `std::regex_match(s, re)`: some way of matching consumes all of `s`. -/
def regex_match (re : Regex) (s : Str) : Bool :=
  (run re ⟨false, s, []⟩).any fun e => e.rest.isEmpty

/-- The loop `while (std::regex_search(searchStart, end, matches, re)) { body; searchStart = matches.suffix().first; }`
over the state `σ` that the body updates. -/
def scanLoop {σ : Type} (re : Regex) (body : MatchResult → σ → σ) : Nat → Str → σ → Option σ
  | 0, _, _ => none
  | fuel + 1, s, st =>
    match regex_search re s with
    | none => some st
    | some m => scanLoop re body fuel m.suffix (body m st)

/-! ## The patterns of the program -/

/-- `\s*`. -/
def ws : Regex := star isSpaceChar

/-- `[a-zA-Z0-9_]+`. -/
def word : Regex := plus isWordChar

/-- `\b(strcpy|strcat|sprintf|gets|scanf)\s*\(`. -/
def unsafeCallRegex : Regex :=
  cat [wordBoundary,
    group 1 (alts (lit "strcpy".toList)
      [lit "strcat".toList, lit "sprintf".toList, lit "gets".toList, lit "scanf".toList]),
    ws, chr '(']

/-- `\bchar\s+[a-zA-Z0-9_]+\s*\[[0-9]+\]`. -/
def fixedBufferRegex : Regex :=
  cat [wordBoundary, lit "char".toList, plus isSpaceChar, word, ws,
    chr '[', plus isDigitChar, chr ']']

/-- `\bmemcpy\s*\([^,]+,[^,]+,[^)]+\)`. -/
def memcpyRegex : Regex :=
  cat [wordBoundary, lit "memcpy".toList, ws, chr '(', plus (notChr ','), chr ',',
    plus (notChr ','), chr ',', plus (notChr ')'), chr ')']

/-- `\bnew\s+char\s*\[[^\]]+\]`. -/
def newCharRegex : Regex :=
  cat [wordBoundary, lit "new".toList, plus isSpaceChar, lit "char".toList, ws,
    chr '[', plus (notChr ']'), chr ']']

/-- `\bstd::copy\s*\(`. -/
def stdCopyRegex : Regex :=
  cat [wordBoundary, lit "std::copy".toList, ws, chr '(']

/-- `for\s*\([^;]*;[^;]*;[^\)]*\)\s*\{[^\}]*\[[^\]]*\]`. -/
def lineLoopRegex : Regex :=
  cat [lit "for".toList, ws, chr '(', star (notChr ';'), chr ';', star (notChr ';'), chr ';',
    star (notChr ')'), chr ')', ws, chr '{', star (notChr '}'), chr '[', star (notChr ']'), chr ']']

/-- The member `vulnerablePatterns`. -/
def vulnerablePatterns : List (Regex × Str) :=
  [(unsafeCallRegex, "Unsafe C string function".toList),
   (fixedBufferRegex, "Fixed-size buffer declaration".toList),
   (memcpyRegex, "Potential unsafe memcpy".toList),
   (newCharRegex, "Dynamic array allocation".toList),
   (stdCopyRegex, "std::copy without bounds checking".toList),
   (lineLoopRegex, "Loop with array access".toList)]

/-- `\[([^\]]+)\]`. -/
def arrayAccessRegex : Regex :=
  cat [chr '[', group 1 (plus (notChr ']')), chr ']']

/-- The member `arrayAccessPatterns`. -/
def arrayAccessPatterns : List (Regex × Str) :=
  [(arrayAccessRegex, "Array access without bounds checking".toList)]

/-- `[a-zA-Z_][a-zA-Z0-9_]*`. -/
def identifierRegex : Regex := seq (set isIdentStart) (star isWordChar)

/-- `for\s*\(([^;]*);([^;]*);([^\)]*)\)\s*\{([^\}]*)\}`. -/
def loopRegex : Regex :=
  cat [lit "for".toList, ws, chr '(', group 1 (star (notChr ';')), chr ';',
    group 2 (star (notChr ';')), chr ';', group 3 (star (notChr ')')), chr ')', ws, chr '{',
    group 4 (star (notChr '}')), chr '}']

/-- `\[[^\]]+\]`. -/
def bracketRegex : Regex := cat [chr '[', plus (notChr ']'), chr ']']

/-- `\s*[a-zA-Z0-9_]+\s*<\s*[a-zA-Z0-9_]+(\.[a-zA-Z0-9_]+)?(\.size\(\)|\.length|\s*-\s*1)`. -/
def boundCheckRegex : Regex :=
  cat [ws, word, ws, chr '<', ws, word, opt (group 1 (seq (chr '.') word)),
    group 2 (alts (lit ".size()".toList) [lit ".length".toList, cat [ws, chr '-', ws, chr '1']])]

/-- `\b(void|int|char|bool|std::string|auto)\s+([a-zA-Z0-9_]+)\s*\(([^\)]*)\)\s*\{`. -/
def funcRegex : Regex :=
  cat [wordBoundary,
    group 1 (alts (lit "void".toList)
      [lit "int".toList, lit "char".toList, lit "bool".toList, lit "std::string".toList,
       lit "auto".toList]),
    plus isSpaceChar, group 2 word, ws, chr '(', group 3 (star (notChr ')')), chr ')', ws, chr '{']

/-- `(char|int|float|double)\s*\*\s*[a-zA-Z0-9_]+`. -/
def pointerParamRegex : Regex :=
  cat [group 1 (alts (lit "char".toList)
      [lit "int".toList, lit "float".toList, lit "double".toList]),
    ws, chr '*', ws, word]

/-- `=\s*[^;]*;`. -/
def assignmentRegex : Regex := cat [chr '=', ws, star (notChr ';'), chr ';']

/-! ## Strings and files -/

/-- `s.substr(pos, n)` for `pos ≤ s.length()`. -/
def substr (s : Str) (pos n : Nat) : Str := (s.drop pos).take n

/-- `s.find_first_of(c, pos)`: the least index `≥ pos` holding `c`, `none` for `npos`. -/
def findFirstOf (c : Char) : Str → Nat → Option Nat
  | [], _ => none
  | x :: t, 0 => if x = c then some 0 else (findFirstOf c t 0).map (· + 1)
  | _ :: t, pos + 1 => (findFirstOf c t pos).map (· + 1)

/-- The lines successive calls of `std::getline` read from a stream holding
`s`, given the characters `cur` of the line read so far: a line ends at `\n`
or at the end of the stream, and the read fails when no character is left. -/
def getlinesAux : Str → Str → List Str
  | cur, [] => if cur = [] then [] else [cur]
  | cur, c :: t => if c = '\n' then cur :: getlinesAux [] t else getlinesAux (cur ++ [c]) t

/-- The lines `while (std::getline(inputFile, line))` iterates over. -/
def getlines (s : Str) : List Str := getlinesAux [] s

/-- What the program sees of the outside world: the contents of the files
that can be opened, and the lines written so far to `std::cout` and `std::cerr`. -/
structure World where
  files : Str → Option Str
  out : List Str
  err : List Str

/-! ## The detector -/

/-- The struct `VulnerabilityInfo`. -/
structure VulnerabilityInfo where
  function : Str
  lineNumber : Nat
  description : Str
  severity : Str
deriving DecidableEq, Repr

/-- The data members of `BufferOverflowDetector` that change or differ
between detectors. -/
structure BufferOverflowDetector where
  vulnerabilities : List VulnerabilityInfo
  fileName : Str

/-- The constructor `BufferOverflowDetector(file)`. -/
def BufferOverflowDetector.new (file : Str) : BufferOverflowDetector :=
  { vulnerabilities := [], fileName := file }

/-- The context excerpt computed in `checkLineForVulnerabilities` from
`matches.position()` and `matches.length()`. -/
def contextOf (line : Str) (m : MatchResult) : Str :=
  let startPos := m.position
  let contextStart := if startPos > 20 then startPos - 20 else 0
  let contextLength := m.length + 40
  let contextLength :=
    if contextStart + contextLength > line.length then line.length - contextStart
    else contextLength
  substr line contextStart contextLength

/-- The record pushed for one match of a vulnerable-construct pattern. -/
def vulnerableInfo (line : Str) (lineNumber : Nat) (description : Str) (m : MatchResult) :
    VulnerabilityInfo :=
  let functionName := match m.sub 1 with
    | some g => g
    | none => m.whole
  let context := contextOf line m
  let severity :=
    if functionName = "strcpy".toList ∨ functionName = "gets".toList then "High".toList
    else "Medium".toList
  { function := functionName
    lineNumber := lineNumber
    description := description ++ " in context: ".toList ++ context
    severity := severity }

/-- The body of the first `while` loop of `checkLineForVulnerabilities`. -/
def vulnerableBody (line : Str) (lineNumber : Nat) (description : Str) (m : MatchResult)
    (vs : List VulnerabilityInfo) : List VulnerabilityInfo :=
  vs ++ [vulnerableInfo line lineNumber description m]

/-- The body of the second `while` loop of `checkLineForVulnerabilities`. -/
def arrayBody (lineNumber : Nat) (m : MatchResult) (vs : List VulnerabilityInfo) :
    List VulnerabilityInfo :=
  let indexExpr := m.str 1
  if regex_match identifierRegex indexExpr then
    vs ++ [{ function := "Array access".toList
             lineNumber := lineNumber
             description := "Unchecked array access with variable: ".toList ++ indexExpr
             severity := "Medium".toList }]
  else vs

/-- The first `for` loop of `checkLineForVulnerabilities`, over `vulnerablePatterns`. -/
def checkVulnerablePatterns (line : Str) (lineNumber : Nat) (vs : List VulnerabilityInfo) :
    Option (List VulnerabilityInfo) :=
  vulnerablePatterns.foldlM
    (fun vs pattern =>
      scanLoop pattern.1 (vulnerableBody line lineNumber pattern.2) (line.length + 1) line vs)
    vs

/-- The second `for` loop of `checkLineForVulnerabilities`, over `arrayAccessPatterns`. -/
def checkArrayPatterns (line : Str) (lineNumber : Nat) (vs : List VulnerabilityInfo) :
    Option (List VulnerabilityInfo) :=
  arrayAccessPatterns.foldlM
    (fun vs pattern => scanLoop pattern.1 (arrayBody lineNumber) (line.length + 1) line vs)
    vs

/-- The method `checkLineForVulnerabilities`, on the vector `vulnerabilities`. -/
def checkLineForVulnerabilities (line : Str) (lineNumber : Nat) (vs : List VulnerabilityInfo) :
    Option (List VulnerabilityInfo) :=
  (checkVulnerablePatterns line lineNumber vs).bind (checkArrayPatterns line lineNumber)

/-- The `while (std::getline(...))` loop of `analyze`: `lineNumber` is the
counter before the line is read. -/
def analyzeLines : List Str → Nat → List VulnerabilityInfo → Option (List VulnerabilityInfo)
  | [], _, vs => some vs
  | line :: more, lineNumber, vs =>
    (checkLineForVulnerabilities line (lineNumber + 1) vs).bind
      (analyzeLines more (lineNumber + 1))

/-- The method `analyze`. -/
def analyze (d : BufferOverflowDetector) (w : World) :
    Option (Bool × BufferOverflowDetector × World) :=
  match w.files d.fileName with
  | none =>
    some (false, d, { w with err := w.err ++ ["Error: Could not open file ".toList ++ d.fileName] })
  | some content =>
    (analyzeLines (getlines content) 0 d.vulnerabilities).map fun vs =>
      (true, { d with vulnerabilities := vs }, w)

/-- The body of the `while` loop of `detectLoopBoundaries`. -/
def loopBoundaryBody (content : Str) (m : MatchResult) (vs : List VulnerabilityInfo) :
    List VulnerabilityInfo :=
  let condition := m.str 2
  let loopBody := m.str 4
  if (regex_search bracketRegex loopBody).isSome then
    let hasProperBoundCheck := (regex_search boundCheckRegex condition).isSome
    if !hasProperBoundCheck then
      let lineNumber := (content.take m.position).count '\n' + 1
      vs ++ [{ function := "Loop boundary".toList
               lineNumber := lineNumber
               description := "Loop may have improper boundary checking for array access".toList
               severity := "Medium".toList }]
    else vs
  else vs

/-- The method `detectLoopBoundaries`. -/
def detectLoopBoundaries (d : BufferOverflowDetector) (w : World) :
    Option (BufferOverflowDetector × World) :=
  match w.files d.fileName with
  | none => some (d, w)
  | some content =>
    (scanLoop loopRegex (loopBoundaryBody content) (content.length + 1) content
      d.vulnerabilities).map fun vs => ({ d with vulnerabilities := vs }, w)

/-- The body of the `while` loop of `analyzeFunctionCalls`. -/
def functionCallBody (content : Str) (m : MatchResult) (vs : List VulnerabilityInfo) :
    List VulnerabilityInfo :=
  let funcName := m.str 2
  let params := m.str 3
  if (regex_search pointerParamRegex params).isSome then
    let lineNumber := (content.take m.position).count '\n' + 1
    let funcStartPos := m.position + m.length - 1
    match findFirstOf '}' content funcStartPos with
    | some funcEndPos =>
      let funcBody := substr content funcStartPos (funcEndPos - funcStartPos)
      if (regex_search assignmentRegex funcBody).isSome then
        vs ++ [{ function := funcName
                 lineNumber := lineNumber
                 description :=
                   "Function with pointer/array parameters may have unchecked writes".toList
                 severity := "Medium".toList }]
      else vs
    | none => vs
  else vs

/-- The method `analyzeFunctionCalls`. -/
def analyzeFunctionCalls (d : BufferOverflowDetector) (w : World) :
    Option (BufferOverflowDetector × World) :=
  match w.files d.fileName with
  | none => some (d, w)
  | some content =>
    (scanLoop funcRegex (functionCallBody content) (content.length + 1) content
      d.vulnerabilities).map fun vs => ({ d with vulnerabilities := vs }, w)

/-- The decimal digits `operator<<` writes for a non-negative `int`. -/
def showNat (n : Nat) : Str := Nat.toDigits 10 n

/-- The line `printResults` writes for one record. -/
def resultLine (v : VulnerabilityInfo) : Str :=
  "Line ".toList ++ showNat v.lineNumber ++ ": [".toList ++ v.severity ++ "] ".toList
    ++ v.function ++ " - ".toList ++ v.description

/-- The separator line of `printResults`. -/
def separatorLine : Str :=
  "---------------------------------------------------------------------".toList

/-- The method `printResults`: the lines it appends to `std::cout`. -/
def printResults (d : BufferOverflowDetector) (w : World) : World :=
  if d.vulnerabilities.isEmpty then
    { w with out := w.out ++ ["No potential buffer overflow vulnerabilities detected.".toList] }
  else
    { w with out := w.out ++
        ["Detected ".toList ++ showNat d.vulnerabilities.length
            ++ " potential buffer overflow vulnerabilities in ".toList ++ d.fileName ++ ":".toList,
         separatorLine]
        ++ d.vulnerabilities.map resultLine ++
        [separatorLine,
         "Note: This is a static analysis and may produce false positives.".toList,
         "Each finding should be manually verified.".toList] }

/-- The method `runFullAnalysis`. -/
def runFullAnalysis (d : BufferOverflowDetector) (w : World) :
    Option (BufferOverflowDetector × World) :=
  (analyze d w).bind fun r =>
    if !r.1 then some r.2
    else
      (detectLoopBoundaries r.2.1 r.2.2).bind fun r1 =>
        (analyzeFunctionCalls r1.1 r1.2).map fun r2 => (r2.1, printResults r2.1 r2.2)

/-- The function `main`, called with the program name `argv[0]` and the
arguments after it: the exit status and the world it leaves. -/
def main (prog : Str) (args : List Str) (w : World) : Option (Nat × World) :=
  match args with
  | [fileName] =>
    (runFullAnalysis (BufferOverflowDetector.new fileName) w).map fun r => (0, r.2)
  | _ =>
    some (1, { w with err := w.err ++ ["Usage: ".toList ++ prog ++ " <cpp_file>".toList] })

/-- The world in which the only file that opens is `name`, holding `content`,
and nothing has been written yet. -/
def World.single (name content : Str) : World :=
  { files := fun f => if f = name then some content else none, out := [], err := [] }

/-! ## Auxiliary definitions

The functions below are not part of the program: they name what the proofs
talk about (the matches a loop iterates over, the records a pass appends)
and the inputs of the examples. -/

/-- The least number of characters a match of the expression consumes. -/
def Regex.minLen : Regex → Nat
  | .eps => 0
  | .chr _ => 1
  | .set _ => 1
  | .wordBoundary => 0
  | .seq a b => a.minLen + b.minLen
  | .alt a b => min a.minLen b.minLen
  | .star _ => 0
  | .opt _ => 0
  | .group _ a => a.minLen

/-- Whether a word character precedes the position reached from a position
with flag `l` by reading `xs`. -/
def lastWord (l : Bool) : Str → Bool
  | [] => l
  | x :: t => lastWord (isWordChar x) t

/-- The matches the loop `scanLoop` iterates over, in order. -/
def scanMatches (re : Regex) : Nat → Str → List MatchResult
  | 0, _ => []
  | fuel + 1, s =>
    match regex_search re s with
    | none => []
    | some m => m :: scanMatches re fuel m.suffix

/-- The names the first pattern looks for. -/
def unsafeNames : List Str :=
  ["strcpy".toList, "strcat".toList, "sprintf".toList, "gets".toList, "scanf".toList]

/-- The records the first loop of `checkLineForVulnerabilities` appends for a line. -/
def vulnerableFindings (line : Str) (lineNumber : Nat) : List VulnerabilityInfo :=
  vulnerablePatterns.flatMap fun pattern =>
    (scanMatches pattern.1 (line.length + 1) line).map (vulnerableInfo line lineNumber pattern.2)

/-- The records the second loop of `checkLineForVulnerabilities` appends for a line. -/
def arrayFindings (line : Str) (lineNumber : Nat) : List VulnerabilityInfo :=
  (scanMatches arrayAccessRegex (line.length + 1) line).flatMap fun m => arrayBody lineNumber m []

/-- The records `checkLineForVulnerabilities` appends for a line. -/
def lineOutput (line : Str) (lineNumber : Nat) : List VulnerabilityInfo :=
  vulnerableFindings line lineNumber ++ arrayFindings line lineNumber

/-- The records the loop of `analyze` appends for the lines that follow line `lineNumber`. -/
def linesOutput : List Str → Nat → List VulnerabilityInfo
  | [], _ => []
  | line :: more, lineNumber =>
    lineOutput line (lineNumber + 1) ++ linesOutput more (lineNumber + 1)

/-- An identifier: a letter or underscore followed by letters, digits or underscores. -/
def isIdentifier : Str → Bool
  | [] => false
  | c :: t => isIdentStart c && t.all isWordChar

/-- The record `checkLineForVulnerabilities` pushes for a bracketed identifier `x`. -/
def arrayAccessInfo (lineNumber : Nat) (x : Str) : VulnerabilityInfo :=
  { function := "Array access".toList
    lineNumber := lineNumber
    description := "Unchecked array access with variable: ".toList ++ x
    severity := "Medium".toList }

/-- The file of two loops used to show how a later match is numbered. -/
def twoLoopsFile : Str :=
  "for (i = 0; i <= n; i++) \x7b a[i] = 0; \x7d\nint x;\nfor (j = 0; j <= n; j++) \x7b b[j] = 0; \x7d\n".toList

/-- The file in which a second function definition follows a first one. -/
def twoFunctionsFile : Str :=
  "#include <cstring>\nint g(int x) \x7b return x; \x7d\nvoid f(char* p) \x7b p[0] = 'a'; \x7d\n".toList

/-- The line with two calls of `gets` after fifty blanks. -/
def twoCallsLine : Str := List.replicate 50 ' ' ++ "gets(a);gets(b);".toList

/-- The line numbers of the records of a detector. -/
def lineNumbers (r : Option (BufferOverflowDetector × World)) : Option (List Nat) :=
  r.map fun p => p.1.vulnerabilities.map fun v => v.lineNumber

/-- The records of a detector. -/
def findings (r : Option (BufferOverflowDetector × World)) : Option (List VulnerabilityInfo) :=
  r.map fun p => p.1.vulnerabilities

/-- Whether a match attempt gives no match longer than `n`. -/
def endsBy (o : Option MatchResult) (n : Nat) : Bool :=
  match o with
  | none => true
  | some m => decide (m.length ≤ n)

/-- The text of a loop `for (init; i <= size; inc) { body }` followed by `post`. -/
def leLoopText (init inc body post : Str) : Str :=
  "for (".toList ++ init ++ "; i <= size; ".toList ++ inc ++ ") \x7b".toList ++ body ++ '}' :: post

/-- The record `detectLoopBoundaries` pushes, with line number `n`. -/
def loopBoundaryInfo (n : Nat) : VulnerabilityInfo :=
  { function := "Loop boundary".toList
    lineNumber := n
    description := "Loop may have improper boundary checking for array access".toList
    severity := "Medium".toList }

/-- The records `detectLoopBoundaries` appends for a file holding `content`. -/
def loopFindings (content : Str) : List VulnerabilityInfo :=
  (scanMatches loopRegex (content.length + 1) content).flatMap fun m =>
    loopBoundaryBody content m []

/-- The records `analyzeFunctionCalls` appends for a file holding `content`. -/
def functionFindings (content : Str) : List VulnerabilityInfo :=
  (scanMatches funcRegex (content.length + 1) content).flatMap fun m =>
    functionCallBody content m []

/-- Whether the expression contains a capture group. -/
def Regex.hasGroup : Regex → Bool
  | .eps => false
  | .chr _ => false
  | .set _ => false
  | .wordBoundary => false
  | .seq a b => a.hasGroup || b.hasGroup
  | .alt a b => a.hasGroup || b.hasGroup
  | .star _ => false
  | .opt a => a.hasGroup
  | .group _ _ => true

/-- The records one run of `runFullAnalysis` appends for a file holding `content`. -/
def fullFindings (content : Str) : List VulnerabilityInfo :=
  linesOutput (getlines content) 0 ++ loopFindings content ++ functionFindings content

/-- The record `analyzeFunctionCalls` pushes for the function `name`, with line number `n`. -/
def functionInfo (name : Str) (n : Nat) : VulnerabilityInfo :=
  { function := name
    lineNumber := n
    description := "Function with pointer/array parameters may have unchecked writes".toList
    severity := "Medium".toList }

/-- The line number the whole-file passes compute for a match. -/
def matchLine (content : Str) (m : MatchResult) : Nat :=
  (content.take m.position).count '\n' + 1

/-- The file that defines a function named `gets` with a pointer parameter. -/
def getsFunctionFile : Str := "void gets(char* p) \x7b p[0] = 'a'; \x7d".toList

/-- The lines `printResults` writes for a detector. -/
def report (d : BufferOverflowDetector) : List Str :=
  (printResults d { files := fun _ => none, out := [], err := [] }).out

/-- The lines on `std::cout` after a run. -/
def outputs (r : Option (BufferOverflowDetector × World)) : Option (List Str) :=
  r.map fun p => p.2.out

/-- The file that holds one call of `gets`. -/
def oneCallFile : Str := "gets(a);".toList

/-- Whether every match of the expression reads the character `c`. -/
def Regex.needs (c : Char) : Regex → Bool
  | .eps => false
  | .chr a => a == c
  | .set _ => false
  | .wordBoundary => false
  | .seq a b => a.needs c || b.needs c
  | .alt a b => a.needs c && b.needs c
  | .star _ => false
  | .opt _ => false
  | .group _ a => a.needs c

/-- The call `s.substr(pos, n)` with its range check: `none` stands for the
`std::out_of_range` the call throws when `pos > s.length()`. -/
def substrChecked (s : Str) (pos n : Nat) : Option Str :=
  if pos ≤ s.length then some (substr s pos n) else none

/-- The local `contextStart` of `checkLineForVulnerabilities`. -/
def contextStart (m : MatchResult) : Nat :=
  if m.position > 20 then m.position - 20 else 0

/-- The local `contextLength` of `checkLineForVulnerabilities`, after the clamp to the line. -/
def contextLength (line : Str) (m : MatchResult) : Nat :=
  if contextStart m + (m.length + 40) > line.length then line.length - contextStart m
  else m.length + 40

/-- The local `funcStartPos` of `analyzeFunctionCalls`. -/
def funcStartPos (m : MatchResult) : Nat := m.position + m.length - 1

/-- The patterns the `while` loops of the program search for. -/
def scanPatterns : List Regex :=
  [unsafeCallRegex, fixedBufferRegex, memcpyRegex, newCharRegex, stdCopyRegex, lineLoopRegex,
   arrayAccessRegex, loopRegex, funcRegex]

/-! ## Theorems -/

theorem starRun_mem {p : Char → Bool} {caps : List (Nat × Str)} {e : Cursor} :
    ∀ {s : Str} {l : Bool}, e ∈ starRun p caps l s →
      ∃ xs, s = xs ++ e.rest ∧ (∀ x ∈ xs, p x = true) ∧ e.caps = caps ∧ e.leftWord = lastWord l xs := by
  intro s
  induction s with
  | nil =>
    intro l h
    simp [starRun] at h
    subst h
    exact ⟨[], by simp [lastWord]⟩
  | cons x t ih =>
    intro l h
    simp only [starRun] at h
    split at h
    · rename_i hp
      rcases List.mem_append.1 h with h | h
      · obtain ⟨xs, h1, h2, h3, h4⟩ := ih h
        refine ⟨x :: xs, by simp [← h1], ?_, h3, by simpa [lastWord] using h4⟩
        intro y hy
        rcases List.mem_cons.1 hy with rfl | hy
        · exact hp
        · exact h2 y hy
      · simp at h
        subst h
        exact ⟨[], by simp [lastWord]⟩
    · simp at h
      subst h
      exact ⟨[], by simp [lastWord]⟩

theorem starRun_of {p : Char → Bool} {caps : List (Nat × Str)} :
    ∀ (xs : Str) (t : Str) (l : Bool), (∀ x ∈ xs, p x = true) →
      (⟨lastWord l xs, t, caps⟩ : Cursor) ∈ starRun p caps l (xs ++ t) := by
  intro xs
  induction xs with
  | nil =>
    intro t l _
    cases t with
    | nil => simp [starRun, lastWord]
    | cons y t => 
      simp only [List.nil_append, starRun, lastWord]
      split <;> simp
  | cons x xs ih =>
    intro t l h
    have hx : p x = true := h x (by simp)
    simp only [List.cons_append, starRun, hx, if_true, lastWord]
    exact List.mem_append_left _ (ih t _ (fun y hy => h y (by simp [hy])))

/-- Every way of matching reads a prefix of the text, at least `minLen` long. -/
theorem run_consumes : ∀ (re : Regex) (c e : Cursor), e ∈ run re c →
    ∃ xs, c.rest = xs ++ e.rest ∧ re.minLen ≤ xs.length := by
  intro re
  induction re with
  | eps => intro c e h; simp [run] at h; subst h; exact ⟨[], by simp [Regex.minLen]⟩
  | chr a =>
    intro c e h
    simp only [run] at h
    split at h
    · split at h
      · simp at h; subst h; rename_i x t hr _; exact ⟨[x], by simp [hr, step, Regex.minLen]⟩
      · simp at h
    · simp at h
  | set p =>
    intro c e h
    simp only [run] at h
    split at h
    · split at h
      · simp at h; subst h; rename_i x t hr _; exact ⟨[x], by simp [hr, step, Regex.minLen]⟩
      · simp at h
    · simp at h
  | wordBoundary =>
    intro c e h
    simp only [run] at h
    split at h
    · simp at h; subst h; exact ⟨[], by simp [Regex.minLen]⟩
    · simp at h
  | seq a b iha ihb =>
    intro c e h
    simp only [run, List.mem_flatMap] at h
    obtain ⟨d, hd, he⟩ := h
    obtain ⟨xs, h1, h2⟩ := iha c d hd
    obtain ⟨ys, h3, h4⟩ := ihb d e he
    exact ⟨xs ++ ys, by simp [h1, h3], by simp [Regex.minLen]; omega⟩
  | alt a b iha ihb =>
    intro c e h
    simp only [run, List.mem_append] at h
    rcases h with h | h
    · obtain ⟨xs, h1, h2⟩ := iha c e h
      exact ⟨xs, h1, by simp [Regex.minLen]; omega⟩
    · obtain ⟨xs, h1, h2⟩ := ihb c e h
      exact ⟨xs, h1, by simp [Regex.minLen]; omega⟩
  | star p =>
    intro c e h
    simp only [run] at h
    obtain ⟨xs, h1, _⟩ := starRun_mem h
    exact ⟨xs, h1, by simp [Regex.minLen]⟩
  | opt a _ =>
    intro c e h
    simp only [run, List.mem_append, List.mem_singleton] at h
    rcases h with h | h
    · rename_i ih
      obtain ⟨xs, h1, _⟩ := ih c e h
      exact ⟨xs, h1, by simp [Regex.minLen]⟩
    · subst h; exact ⟨[], by simp [Regex.minLen]⟩
  | group n a ih =>
    intro c e h
    simp only [run, List.mem_map] at h
    obtain ⟨d, hd, rfl⟩ := h
    obtain ⟨xs, h1, h2⟩ := ih c d hd
    exact ⟨xs, h1, by simpa [Regex.minLen] using h2⟩

theorem matchHere_eq_none {re : Regex} {l : Bool} {n : Nat} {s : Str} :
    matchHere re l n s = none ↔ run re ⟨l, s, []⟩ = [] := by
  simp [matchHere, List.head?_eq_none_iff]

theorem matchHere_none_shift {re : Regex} {l : Bool} {n k : Nat} {s : Str}
    (h : matchHere re l n s = none) : matchHere re l k s = none := by
  rw [matchHere_eq_none] at h ⊢
  exact h

/-- What a successful attempt at one start position reports. -/
theorem matchHere_some {re : Regex} {l : Bool} {n : Nat} {s : Str} {m : MatchResult}
    (h : matchHere re l n s = some m) :
    ∃ e, (run re ⟨l, s, []⟩).head? = some e ∧ e ∈ run re ⟨l, s, []⟩ ∧
      s = m.whole ++ m.suffix ∧ m.length = m.whole.length ∧ re.minLen ≤ m.length ∧
      m.position = n ∧ m.groups = e.caps ∧ m.suffix = e.rest := by
  simp only [matchHere, Option.map_eq_some'] at h
  obtain ⟨e, he, rfl⟩ := h
  have hmem : e ∈ run re ⟨l, s, []⟩ := List.mem_of_mem_head? he
  obtain ⟨xs, h1, h2⟩ := run_consumes re _ _ hmem
  simp only at h1
  refine ⟨e, he, hmem, ?_⟩
  subst h1
  simp [mkMatch, h2]

theorem searchFrom_some {re : Regex} {m : MatchResult} :
    ∀ {s : Str} {l : Bool} {n : Nat}, searchFrom re l n s = some m →
      ∃ a b, s = a ++ b ∧ matchHere re (lastWord l a) (n + a.length) b = some m ∧
        ∀ a1 a2, a = a1 ++ a2 → a2 ≠ [] →
          matchHere re (lastWord l a1) (n + a1.length) (a2 ++ b) = none := by
  intro s
  induction s with
  | nil =>
    intro l n h
    simp only [searchFrom] at h
    exact ⟨[], [], rfl, by simpa [lastWord] using h, by simp⟩
  | cons x t ih =>
    intro l n h
    simp only [searchFrom] at h
    split at h
    · rename_i m' hm
      cases h
      exact ⟨[], x :: t, rfl, by simpa [lastWord] using hm, by simp⟩
    · rename_i hnone
      obtain ⟨a, b, h1, h2, h3⟩ := ih h
      refine ⟨x :: a, b, by simp [h1], ?_, ?_⟩
      · simpa [lastWord, Nat.add_assoc, Nat.add_comm 1] using h2
      · intro a1 a2 h4 h5
        cases a1 with
        | nil =>
          simp only [List.nil_append] at h4
          subst h4
          simpa [lastWord, h1] using hnone
        | cons y a1 =>
          simp only [List.cons_append, List.cons.injEq] at h4
          obtain ⟨rfl, rfl⟩ := h4
          have := h3 a1 a2 rfl h5
          simpa [lastWord, Nat.add_assoc, Nat.add_comm 1] using this

theorem searchFrom_isSome {re : Regex} :
    ∀ (a b : Str) (l : Bool) (n k : Nat), (matchHere re (lastWord l a) k b).isSome = true →
      (searchFrom re l n (a ++ b)).isSome = true := by
  intro a
  induction a with
  | nil =>
    intro b l n k h
    simp only [lastWord] at h
    have h' : (matchHere re l n b).isSome = true := by
      cases hk : matchHere re l n b with
      | some _ => rfl
      | none => rw [matchHere_none_shift hk] at h; exact h
    cases b with
    | nil => simpa [searchFrom] using h'
    | cons y b =>
      simp only [List.nil_append, searchFrom]
      cases hm : matchHere re l n (y :: b) with
      | some _ => rfl
      | none => rw [hm] at h'; cases h'
  | cons x a ih =>
    intro b l n k h
    simp only [List.cons_append, searchFrom]
    cases hm : matchHere re l n (x :: (a ++ b)) with
    | some _ => rfl
    | none => exact ih b _ _ k (by simpa [lastWord] using h)

/-- With more fuel than characters, a loop over a pattern that cannot match
the empty text ends, having run its body on the matches `scanMatches` lists. -/
theorem scanLoop_eq {σ : Type} {re : Regex} (body : MatchResult → σ → σ) (hre : 1 ≤ re.minLen) :
    ∀ (fuel : Nat) (s : Str) (st : σ), s.length < fuel →
      scanLoop re body fuel s st =
        some ((scanMatches re fuel s).foldl (fun st m => body m st) st) := by
  intro fuel
  induction fuel with
  | zero => intro s st h; omega
  | succ fuel ih =>
    intro s st h
    simp only [scanLoop, scanMatches]
    cases hs : regex_search re s with
    | none => simp
    | some m =>
      simp only [List.foldl_cons]
      obtain ⟨a, b, h1, h2, _⟩ := searchFrom_some hs
      obtain ⟨e, _, _, h3, h4, h5, _⟩ := matchHere_some h2
      apply ih
      have : s.length = a.length + m.whole.length + m.suffix.length := by
        rw [h1, h3]; simp; omega
      omega

/-- The loop reaches a match that starts after the text `pre`, when the
pattern matches there and no match that starts inside `pre` runs past its end. -/
theorem scan_reach {re : Regex} (hre : 1 ≤ re.minLen) :
    ∀ (fuel : Nat) (pre t : Str), (pre ++ t).length < fuel →
      (∀ a b, pre = a ++ b → ∀ n, (matchHere re (lastWord false b) n t).isSome = true) →
      (∀ a c, pre = a ++ c → c ≠ [] → ∀ l n m, matchHere re l n (c ++ t) = some m →
        m.length ≤ c.length) →
      ∃ m ∈ scanMatches re fuel (pre ++ t), ∃ a b, pre = a ++ b ∧
        matchHere re (lastWord false b) b.length t = some m := by
  intro fuel
  induction fuel with
  | zero => intro pre t h; omega
  | succ fuel ih =>
    intro pre t hlen hyes hno
    have hs : (regex_search re (pre ++ t)).isSome = true :=
      searchFrom_isSome pre t false 0 0 (hyes [] pre rfl 0)
    obtain ⟨m, hm⟩ := Option.isSome_iff_exists.1 hs
    simp only [scanMatches, hm]
    obtain ⟨a, b, h1, h2, h3⟩ := searchFrom_some hm
    rcases List.append_eq_append_iff.1 h1 with ⟨c, hc1, hc2⟩ | ⟨c, hc1, hc2⟩
    · -- the match starts after `pre`
      by_cases hcn : c = []
      · subst hcn
        simp only [List.append_nil] at hc1
        simp only [List.nil_append] at hc2
        subst hc1 hc2
        exact ⟨m, List.mem_cons_self _ _, [], _, rfl, by simpa using h2⟩
      · have hnone := h3 pre c hc1 hcn
        rw [← hc2] at hnone
        have := hyes [] pre rfl (0 + pre.length)
        rw [hnone] at this
        cases this
    · -- the match starts inside `pre`
      by_cases hcn : c = []
      · subst hcn
        simp only [List.append_nil] at hc1
        simp only [List.nil_append] at hc2
        subst hc1 hc2
        exact ⟨m, List.mem_cons_self _ _, [], _, rfl, by simpa using h2⟩
      · subst hc2
        have hle := hno a c hc1 hcn _ _ m h2
        obtain ⟨e, _, _, h4, h5, h6, _⟩ := matchHere_some h2
        rcases List.append_eq_append_iff.1 h4 with ⟨d, hd1, hd2⟩ | ⟨d, hd1, hd2⟩
        · have hd : d = [] := by
            have : m.whole.length = c.length + d.length := by rw [hd1]; simp
            have : d.length = 0 := by omega
            exact List.length_eq_zero.1 this
          subst hd
          simp only [List.append_nil] at hd1
          simp only [List.nil_append] at hd2
          have hlen' : (([] : Str) ++ t).length < fuel := by
            have : 1 ≤ m.whole.length := by omega
            rw [hc1, ← hd1] at hlen
            simp at hlen ⊢
            omega
          obtain ⟨m', hm', a', b', hab, hmatch⟩ := ih [] t hlen'
            (by
              intro a' b' hab n
              have hb : b' = [] := by
                have := congrArg List.length hab
                simp at this
                exact List.length_eq_zero.1 (by omega)
              subst hb
              exact hyes pre [] (by simp) n)
            (by
              intro a' c' hab hc'
              exfalso
              apply hc'
              have := congrArg List.length hab
              simp at this
              exact List.length_eq_zero.1 (by omega))
          refine ⟨m', List.mem_cons_of_mem _ (by simpa [hd2] using hm'), pre, [], by simp, ?_⟩
          have hb : b' = [] := by
            have := congrArg List.length hab
            simp at this
            exact List.length_eq_zero.1 (by omega)
          subst hb
          exact hmatch
        · have hlen' : (d ++ t).length < fuel := by
            have : 1 ≤ m.whole.length := by omega
            rw [hc1, hd1] at hlen
            simp at hlen ⊢
            omega
          obtain ⟨m', hm', a', b', hab, hmatch⟩ := ih d t hlen'
            (by
              intro a' b' hab n
              exact hyes (a ++ m.whole ++ a') b' (by simp [hc1, hd1, hab]) n)
            (by
              intro a' c' hab hc' l n m'' hm''
              exact hno (a ++ m.whole ++ a') c' (by simp [hc1, hd1, hab]) hc' l n m'' hm'')
          exact ⟨m', List.mem_cons_of_mem _ (by simpa [hd2] using hm'),
            a ++ m.whole ++ a', b', by simp [hc1, hd1, hab], hmatch⟩

theorem mem_run_eps {c e : Cursor} : e ∈ run .eps c ↔ e = c := by simp [run]

theorem mem_run_chr {a : Char} {c e : Cursor} :
    e ∈ run (.chr a) c ↔ ∃ t, c.rest = a :: t ∧ e = ⟨isWordChar a, t, c.caps⟩ := by
  simp only [run]
  split
  · rename_i x t hr
    split
    · rename_i hx; subst hx; simp [step, hr]
    · rename_i hx; simp [hr, hx]
  · rename_i hr; simp [hr]

theorem mem_run_set {p : Char → Bool} {c e : Cursor} :
    e ∈ run (.set p) c ↔ ∃ x t, c.rest = x :: t ∧ p x = true ∧ e = ⟨isWordChar x, t, c.caps⟩ := by
  simp only [run]
  split
  · rename_i x t hr
    split
    · rename_i hx
      simp only [step, hr, List.mem_singleton, List.cons.injEq]
      constructor
      · rintro rfl; exact ⟨x, t, ⟨rfl, rfl⟩, hx, rfl⟩
      · rintro ⟨y, u, ⟨rfl, rfl⟩, _, rfl⟩; rfl
    · rename_i hx; simp only [hr, List.not_mem_nil, List.cons.injEq, false_iff, not_exists, not_and]
      rintro y u ⟨rfl, rfl⟩ hy
      exact absurd hy hx
  · rename_i hr; simp [hr]

theorem mem_run_wordBoundary {c e : Cursor} :
    e ∈ run .wordBoundary c ↔ e = c ∧ c.leftWord ≠ rightWord c.rest := by
  simp only [run]
  split
  · rename_i h; simp at h; simp [h]
  · rename_i h; simp at h; simp [h]

theorem mem_run_seq {a b : Regex} {c e : Cursor} :
    e ∈ run (.seq a b) c ↔ ∃ d, d ∈ run a c ∧ e ∈ run b d := by
  simp [run, List.mem_flatMap]

theorem mem_run_alt {a b : Regex} {c e : Cursor} :
    e ∈ run (.alt a b) c ↔ e ∈ run a c ∨ e ∈ run b c := by
  simp [run]

theorem mem_run_opt {a : Regex} {c e : Cursor} :
    e ∈ run (.opt a) c ↔ e ∈ run a c ∨ e = c := by
  simp [run]

theorem mem_run_group {n : Nat} {a : Regex} {c e : Cursor} :
    e ∈ run (.group n a) c ↔ ∃ d, d ∈ run a c ∧
      e = ⟨d.leftWord, d.rest, (n, c.rest.take (c.rest.length - d.rest.length)) :: d.caps⟩ := by
  simp only [run, List.mem_map]
  constructor
  · rintro ⟨d, hd, rfl⟩; exact ⟨d, hd, rfl⟩
  · rintro ⟨d, hd, rfl⟩; exact ⟨d, hd, rfl⟩

theorem mem_run_star {p : Char → Bool} {c e : Cursor} :
    e ∈ run (.star p) c ↔ ∃ xs, c.rest = xs ++ e.rest ∧ (∀ x ∈ xs, p x = true) ∧
      e = ⟨lastWord c.leftWord xs, e.rest, c.caps⟩ := by
  simp only [run]
  constructor
  · intro h
    obtain ⟨xs, h1, h2, h3, h4⟩ := starRun_mem h
    refine ⟨xs, h1, h2, ?_⟩
    cases e
    simp_all
  · rintro ⟨xs, h1, h2, h3⟩
    rw [h3, h1]
    exact starRun_of xs e.rest c.leftWord h2

theorem mem_run_lit {w : Str} : ∀ {c e : Cursor},
    e ∈ run (lit w) c ↔ ∃ t, c.rest = w ++ t ∧ e = ⟨lastWord c.leftWord w, t, c.caps⟩ := by
  induction w with
  | nil =>
    intro c e
    simp only [lit, mem_run_eps, List.nil_append, lastWord]
    constructor
    · rintro rfl; exact ⟨_, rfl, rfl⟩
    · rintro ⟨t, h1, rfl⟩; cases c; simp_all
  | cons a w ih =>
    intro c e
    simp only [lit, mem_run_seq, mem_run_chr, ih, List.cons_append, lastWord]
    constructor
    · rintro ⟨d, ⟨t, h1, rfl⟩, u, h2, rfl⟩
      simp only at h2
      subst h2
      exact ⟨u, h1, rfl⟩
    · rintro ⟨t, h1, rfl⟩
      exact ⟨_, ⟨_, h1, rfl⟩, t, rfl, rfl⟩

theorem mem_run_plus {p : Char → Bool} {c e : Cursor} :
    e ∈ run (plus p) c ↔ ∃ x xs, c.rest = x :: xs ++ e.rest ∧ p x = true ∧
      (∀ y ∈ xs, p y = true) ∧ e = ⟨lastWord c.leftWord (x :: xs), e.rest, c.caps⟩ := by
  simp only [plus, mem_run_seq, mem_run_set, mem_run_star]
  constructor
  · rintro ⟨d, ⟨x, t, h1, h2, rfl⟩, xs, h3, h4, h5⟩
    simp only at h3 h5
    subst h3
    exact ⟨x, xs, h1, h2, h4, by simpa [lastWord] using h5⟩
  · rintro ⟨x, xs, h1, h2, h3, h4⟩
    exact ⟨_, ⟨x, _, h1, h2, rfl⟩, xs, rfl, h3, by simpa [lastWord] using h4⟩

theorem unsafeCall_mem {l : Bool} {s : Str} {e : Cursor}
    (h : e ∈ run unsafeCallRegex ⟨l, s, []⟩) :
    ∃ name sp t, name ∈ unsafeNames ∧ s = name ++ sp ++ '(' :: t ∧
      (∀ x ∈ sp, isSpaceChar x = true) ∧ e.rest = t ∧ e.caps = [(1, name)] := by
  simp only [unsafeCallRegex, Regex.cat, Regex.alts, ws, mem_run_seq, mem_run_wordBoundary,
    mem_run_group, mem_run_alt, mem_run_lit, mem_run_star, mem_run_chr] at h
  obtain ⟨d, ⟨rfl, _⟩, d1, ⟨d2, hd2, rfl⟩, d3, ⟨sp, h1, hsp, h2⟩, t, h3, rfl⟩ := h
  simp only at hd2 h1 h2 h3
  rw [h3] at h1
  have hname : ∃ name u, name ∈ unsafeNames ∧ s = name ++ u ∧ d2 = ⟨lastWord l name, u, []⟩ := by
    rcases hd2 with ⟨u, hu, rfl⟩ | ⟨u, hu, rfl⟩ | ⟨u, hu, rfl⟩ | ⟨u, hu, rfl⟩ | ⟨u, hu, rfl⟩
    · exact ⟨"strcpy".toList, u, by simp [unsafeNames], hu, rfl⟩
    · exact ⟨"strcat".toList, u, by simp [unsafeNames], hu, rfl⟩
    · exact ⟨"sprintf".toList, u, by simp [unsafeNames], hu, rfl⟩
    · exact ⟨"gets".toList, u, by simp [unsafeNames], hu, rfl⟩
    · exact ⟨"scanf".toList, u, by simp [unsafeNames], hu, rfl⟩
  obtain ⟨name, u, hn, hs, rfl⟩ := hname
  simp only at h1 h2
  subst h1
  refine ⟨name, sp, t, hn, by simp [hs], hsp, rfl, ?_⟩
  rw [h2, hs]
  simp

theorem lastWord_eq (l : Bool) (xs : Str) :
    lastWord l xs = match xs.getLast? with
      | none => l
      | some z => isWordChar z := by
  induction xs generalizing l with
  | nil => rfl
  | cons x xs ih =>
    simp only [lastWord, ih]
    cases xs with
    | nil => rfl
    | cons y ys =>
      rw [List.getLast?_cons_cons]
      cases h : (y :: ys).getLast? with
      | none => simp at h
      | some z => rfl

theorem lastWord_suffix_false {pre a b : Str} (h : pre = a ++ b)
    (hpre : ∀ z, pre.getLast? = some z → isWordChar z = false) : lastWord false b = false := by
  rw [lastWord_eq]
  cases hb : b.getLast? with
  | none => rfl
  | some z =>
    simp only
    apply hpre
    rw [h, List.getLast?_append, hb]
    rfl

theorem unsafeNames_word : ∀ name ∈ unsafeNames, ∀ x ∈ name, isWordChar x = true := by decide

theorem unsafeNames_ne_nil : ∀ name ∈ unsafeNames, ∃ x u, name = x :: u ∧ isWordChar x = true := by
  intro name h
  simp only [unsafeNames, List.mem_cons, List.mem_singleton, List.not_mem_nil, or_false] at h
  rcases h with rfl | rfl | rfl | rfl | rfl <;> exact ⟨_, _, rfl, by decide⟩

theorem unsafeNames_prefix_free {n1 n2 x y : Str} (h1 : n1 ∈ unsafeNames) (h2 : n2 ∈ unsafeNames)
    (h : n1 ++ x = n2 ++ y) : n1 = n2 := by
  simp only [unsafeNames, List.mem_cons, List.mem_singleton, List.not_mem_nil, or_false] at h1 h2
  rcases h1 with rfl | rfl | rfl | rfl | rfl <;> rcases h2 with rfl | rfl | rfl | rfl | rfl <;>
    first
      | rfl
      | (exfalso; revert h; simp)

theorem space_not_word {x : Char} (h : isSpaceChar x = true) : isWordChar x = false := by
  simp only [isSpaceChar, Bool.or_eq_true, beq_iff_eq] at h
  rcases h with ((((rfl | rfl) | rfl) | rfl) | rfl) | rfl <;> decide

/-- In a text made of word characters followed by other characters, a word
character is never preceded by another kind of character. -/
theorem word_before_word {A B u v : Str} {z w : Char} (hA : ∀ x ∈ A, isWordChar x = true)
    (hB : ∀ x ∈ B, isWordChar x = false) (h : A ++ B = u ++ z :: w :: v)
    (hw : isWordChar w = true) : isWordChar z = true := by
  rcases List.append_eq_append_iff.1 h with ⟨c, hc1, hc2⟩ | ⟨c, hc1, hc2⟩
  · -- u = A ++ c
    have : w ∈ B := by rw [hc2]; simp
    rw [hB w this] at hw
    cases hw
  · -- A = u ++ c
    cases c with
    | nil =>
      have : w ∈ B := by simp at hc2; rw [← hc2]; simp
      rw [hB w this] at hw
      cases hw
    | cons c0 c =>
      cases c with
      | nil =>
        have : w ∈ B := by simp at hc2; rw [← hc2.2]; simp
        rw [hB w this] at hw
        cases hw
      | cons c1 c =>
        simp only [List.cons_append, List.cons.injEq] at hc2
        apply hA
        rw [hc1, hc2.1]
        simp

/-- The first pattern matches at a name that no word character precedes. -/
theorem unsafeCall_complete {name sp t : Str} (hn : name ∈ unsafeNames)
    (hsp : ∀ x ∈ sp, isSpaceChar x = true) (n : Nat) :
    (matchHere unsafeCallRegex false n (name ++ sp ++ '(' :: t)).isSome = true := by
  cases hm : matchHere unsafeCallRegex false n (name ++ sp ++ '(' :: t) with
  | some _ => rfl
  | none =>
    exfalso
    rw [matchHere_eq_none] at hm
    have : (⟨isWordChar '(', t, [(1, name)]⟩ : Cursor) ∈
        run unsafeCallRegex ⟨false, name ++ sp ++ '(' :: t, []⟩ := by
      simp only [unsafeCallRegex, Regex.cat, Regex.alts, ws, mem_run_seq, mem_run_wordBoundary,
        mem_run_group, mem_run_alt, mem_run_lit, mem_run_star, mem_run_chr]
      obtain ⟨x, u, hxu, hx⟩ := unsafeNames_ne_nil name hn
      refine ⟨_, ⟨rfl, by simp [hxu, rightWord, hx]⟩, ⟨lastWord false name, sp ++ '(' :: t, [(1, name)]⟩,
        ⟨⟨lastWord false name, sp ++ '(' :: t, []⟩, ?_, by simp⟩,
        ⟨lastWord (lastWord false name) sp, '(' :: t, [(1, name)]⟩, ⟨sp, rfl, hsp, rfl⟩, t, rfl, rfl⟩
      simp only [unsafeNames, List.mem_cons, List.mem_singleton, List.not_mem_nil, or_false] at hn
      rcases hn with rfl | rfl | rfl | rfl | rfl
      · exact Or.inl ⟨_, by simp, rfl⟩
      · exact Or.inr (Or.inl ⟨_, by simp, rfl⟩)
      · exact Or.inr (Or.inr (Or.inl ⟨_, by simp, rfl⟩))
      · exact Or.inr (Or.inr (Or.inr (Or.inl ⟨_, by simp, rfl⟩)))
      · exact Or.inr (Or.inr (Or.inr (Or.inr ⟨_, by simp, rfl⟩)))
    rw [hm] at this
    cases this

/-- A match of the first pattern that starts before a name which no word
character precedes ends before that name. -/
theorem unsafeCall_no_overlap {c name u : Str} {l : Bool} {n : Nat} {m : MatchResult}
    (hn : name ∈ unsafeNames) (hc : ∀ z, c.getLast? = some z → isWordChar z = false)
    (hcn : c ≠ []) (hm : matchHere unsafeCallRegex l n (c ++ (name ++ u)) = some m) :
    m.length ≤ c.length := by
  obtain ⟨e, _, hmem, h1, h2, _, _, _, h3⟩ := matchHere_some hm
  obtain ⟨name', sp', t', hn', hs, hsp', ht', _⟩ := unsafeCall_mem hmem
  by_contra hlt
  have hW : m.whole = name' ++ sp' ++ ['('] := by
    have : m.whole ++ m.suffix = (name' ++ sp' ++ ['(']) ++ t' := by rw [← h1, hs]; simp
    rw [h3, ht'] at this
    exact List.append_cancel_right this
  rcases List.append_eq_append_iff.1 h1 with ⟨d, hd1, hd2⟩ | ⟨d, hd1, hd2⟩
  · -- m.whole = c ++ d
    obtain ⟨x, nu, hx, hxw⟩ := unsafeNames_ne_nil name hn
    obtain ⟨c0, z, hcz⟩ : ∃ c0 z, c = c0 ++ [z] := by
      rcases List.eq_nil_or_concat c with h | ⟨c0, z, h⟩
      · exact absurd h hcn
      · exact ⟨c0, z, by simpa using h⟩
    have hz : isWordChar z = false := hc z (by simp [hcz])
    cases d with
    | nil =>
      apply hlt
      rw [h2, hd1]
      simp
    | cons d0 d =>
      have hd0 : d0 = x := by
        rw [hx] at hd2
        simp at hd2
        exact hd2.1.symm
      have : isWordChar z = true := by
        apply word_before_word (A := name') (B := sp' ++ ['(']) (u := c0) (z := z) (w := x) (v := d)
          (unsafeNames_word name' hn')
        · intro y hy
          rcases List.mem_append.1 hy with hy | hy
          · exact space_not_word (hsp' y hy)
          · simp at hy; subst hy; decide
        · rw [← List.append_assoc, ← hW, hd1, hcz, hd0]; simp
        · exact hxw
      rw [hz] at this
      cases this
  · -- c = m.whole ++ d
    apply hlt
    rw [h2, hd1]
    simp

theorem foldl_append_body {α β : Type} (f : α → List β) (body : α → List β → List β)
    (hbody : ∀ m vs, body m vs = vs ++ f m) (ms : List α) (vs : List β) :
    ms.foldl (fun st m => body m st) vs = vs ++ ms.flatMap f := by
  induction ms generalizing vs with
  | nil => simp
  | cons m ms ih =>
    simp only [List.foldl_cons, List.flatMap_cons]
    rw [ih, hbody]
    simp

theorem vulnerablePatterns_minLen : ∀ p ∈ vulnerablePatterns, 1 ≤ p.1.minLen := by
  intro p hp
  simp only [vulnerablePatterns, List.mem_cons, List.mem_singleton, List.not_mem_nil,
    or_false] at hp
  rcases hp with rfl | rfl | rfl | rfl | rfl | rfl <;> decide

theorem arrayAccessRegex_minLen : 1 ≤ arrayAccessRegex.minLen := by decide

theorem loopRegex_minLen : 1 ≤ loopRegex.minLen := by decide

theorem funcRegex_minLen : 1 ≤ funcRegex.minLen := by decide

theorem foldlM_patterns (line : Str) (lineNumber : Nat) :
    ∀ (pats : List (Regex × Str)), (∀ p ∈ pats, 1 ≤ p.1.minLen) → ∀ (vs : List VulnerabilityInfo),
      pats.foldlM
        (fun vs pattern =>
          scanLoop pattern.1 (vulnerableBody line lineNumber pattern.2) (line.length + 1) line vs)
        vs =
      some (vs ++ pats.flatMap fun pattern =>
        (scanMatches pattern.1 (line.length + 1) line).map
          (vulnerableInfo line lineNumber pattern.2)) := by
  intro pats
  induction pats with
  | nil => intro _ vs; simp
  | cons p pats ih =>
    intro hp vs
    rw [List.foldlM_cons, scanLoop_eq _ (hp p (by simp)) _ _ _ (Nat.lt_add_one _)]
    simp only [Option.bind_eq_bind, Option.some_bind]
    rw [ih (fun q hq => hp q (by simp [hq]))]
    rw [foldl_append_body (fun m => [vulnerableInfo line lineNumber p.2 m])
      (vulnerableBody line lineNumber p.2) (fun _ _ => rfl)]
    simp only [List.flatMap_cons, List.append_assoc, Option.some.injEq, List.append_cancel_left_eq,
      List.append_cancel_right_eq]
    induction scanMatches p.1 (line.length + 1) line with
    | nil => rfl
    | cons m ms ihm => simp [List.flatMap_cons, ihm]

theorem arrayBody_eq (lineNumber : Nat) (m : MatchResult) (vs : List VulnerabilityInfo) :
    arrayBody lineNumber m vs = vs ++ arrayBody lineNumber m [] := by
  simp only [arrayBody]
  split <;> simp

/-- The method `checkLineForVulnerabilities` always returns, having appended `lineOutput`. -/
theorem checkLine_eq (line : Str) (lineNumber : Nat) (vs : List VulnerabilityInfo) :
    checkLineForVulnerabilities line lineNumber vs = some (vs ++ lineOutput line lineNumber) := by
  simp only [checkLineForVulnerabilities, checkVulnerablePatterns,
    foldlM_patterns line lineNumber _ vulnerablePatterns_minLen, Option.some_bind,
    checkArrayPatterns, arrayAccessPatterns, List.foldlM_cons, List.foldlM_nil]
  rw [scanLoop_eq _ arrayAccessRegex_minLen _ _ _ (Nat.lt_add_one _)]
  simp only [Option.bind_eq_bind, Option.some_bind, pure]
  rw [foldl_append_body (fun m => arrayBody lineNumber m []) (arrayBody lineNumber)
    (arrayBody_eq lineNumber)]
  simp [lineOutput, vulnerableFindings, arrayFindings]

theorem analyzeLines_eq : ∀ (lines : List Str) (n : Nat) (vs : List VulnerabilityInfo),
    analyzeLines lines n vs = some (vs ++ linesOutput lines n) := by
  intro lines
  induction lines with
  | nil => intro n vs; simp [analyzeLines, linesOutput]
  | cons line more ih =>
    intro n vs
    simp [analyzeLines, checkLine_eq, ih, linesOutput]

theorem mem_linesOutput {f : VulnerabilityInfo} : ∀ {lines : List Str} {n k : Nat} {line : Str},
    lines[k]? = some line → f ∈ lineOutput line (n + k + 1) → f ∈ linesOutput lines n := by
  intro lines
  induction lines with
  | nil => intro n k line h; simp at h
  | cons l more ih =>
    intro n k line h hf
    cases k with
    | zero =>
      simp at h
      subst h
      simp only [linesOutput, List.mem_append]
      exact Or.inl hf
    | succ k =>
      simp at h
      simp only [linesOutput, List.mem_append]
      right
      apply ih h
      have : n + 1 + k + 1 = n + (k + 1) + 1 := by omega
      rw [this]
      exact hf

theorem sub_one_of_groups {m : MatchResult} {name : Str} (h : m.groups = [(1, name)]) :
    m.sub 1 = some name := by
  simp [MatchResult.sub, h]

/-- C1 (counterexample): the line `fgets(buf, 10, f);` contains the name
`gets` followed by an opening parenthesis, yet the line pass over the file
made of that line produces no record at all. -/
theorem unsafe_call_inside_word_not_reported :
    (∃ pre post, "fgets(buf, 10, f);".toList = pre ++ "gets".toList ++ '(' :: post) ∧
    (getlines "fgets(buf, 10, f);".toList)[0]? = some "fgets(buf, 10, f);".toList ∧
    (analyze (BufferOverflowDetector.new "a.cpp".toList)
      (World.single "a.cpp".toList "fgets(buf, 10, f);".toList)).map
        (fun r => (r.1, r.2.1.vulnerabilities)) = some (true, []) :=
  ⟨⟨"f".toList, "buf, 10, f);".toList, by decide⟩, by decide, by decide⟩

/-- C1 (amended): for every file that opens and every line `k + 1` of it that
contains one of the names strcpy, strcat, sprintf, gets, scanf, not directly
preceded by a letter, digit or underscore and followed, after optional white
space, by an opening parenthesis, the line pass returns and appends a record
whose subject is that name, whose line number is `k + 1` and whose severity
is High for strcpy and gets and Medium for the other three names. -/
theorem unsafe_call_reported (d : BufferOverflowDetector) (w : World) (content : Str)
    (hopen : w.files d.fileName = some content) (k : Nat) (line pre name sp post : Str)
    (hline : (getlines content)[k]? = some line) (hname : name ∈ unsafeNames)
    (hshape : line = pre ++ name ++ sp ++ '(' :: post)
    (hsp : ∀ x ∈ sp, isSpaceChar x = true)
    (hpre : ∀ z, pre.getLast? = some z → isWordChar z = false) :
    ∃ new f,
      analyze d w = some (true, { d with vulnerabilities := d.vulnerabilities ++ new }, w) ∧
      f ∈ new ∧ f.function = name ∧ f.lineNumber = k + 1 ∧
      f.severity =
        if name = "strcpy".toList ∨ name = "gets".toList then "High".toList
        else "Medium".toList := by
  have hreach := @scan_reach unsafeCallRegex (by decide) (line.length + 1) pre
    (name ++ sp ++ '(' :: post) (by rw [hshape]; simp)
    (by
      intro a b hab n
      rw [lastWord_suffix_false hab hpre]
      exact unsafeCall_complete hname hsp n)
    (by
      intro a c hac hc l n m hm
      have hc' : ∀ z, c.getLast? = some z → isWordChar z = false := by
        intro z hz
        apply hpre
        rw [hac, List.getLast?_append, hz]
        rfl
      rw [List.append_assoc] at hm
      exact unsafeCall_no_overlap hname hc' hc hm)
  obtain ⟨m, hm, a, b, _, hmatch⟩ := hreach
  obtain ⟨e, _, hmem, _, _, _, _, hg, _⟩ := matchHere_some hmatch
  obtain ⟨name', sp', t', hn', hs, _, _, hcaps⟩ := unsafeCall_mem hmem
  have hnn : name' = name := by
    apply unsafeNames_prefix_free hn' hname (x := sp' ++ '(' :: t') (y := sp ++ '(' :: post)
    rw [← List.append_assoc, ← hs]
    simp
  subst hnn
  have hsub : m.sub 1 = some name' := sub_one_of_groups (by rw [hg, hcaps])
  refine ⟨linesOutput (getlines content) 0,
    vulnerableInfo line (k + 1) "Unsafe C string function".toList m, ?_, ?_, ?_, ?_, ?_⟩
  · simp [analyze, hopen, analyzeLines_eq]
  · apply mem_linesOutput hline
    simp only [lineOutput, List.mem_append, Nat.zero_add]
    left
    simp only [vulnerableFindings, List.mem_flatMap, List.mem_map]
    refine ⟨(unsafeCallRegex, "Unsafe C string function".toList), by simp [vulnerablePatterns],
      m, ?_, rfl⟩
    have hl : pre ++ (name' ++ sp ++ '(' :: post) = line := by rw [hshape]; simp
    rw [hl] at hm
    exact hm
  · simp [vulnerableInfo, hsub]
  · simp [vulnerableInfo]
  · simp [vulnerableInfo, hsub]

/-- C1 (witness): line 2 of the file `int x;\n  strcpy (dest, src);`. -/
theorem unsafe_call_reported_witness :
    ∃ new f,
      analyze (BufferOverflowDetector.new "a.cpp".toList)
        (World.single "a.cpp".toList "int x;\n  strcpy (dest, src);".toList) =
        some (true,
          { BufferOverflowDetector.new "a.cpp".toList with
            vulnerabilities := (BufferOverflowDetector.new "a.cpp".toList).vulnerabilities ++ new },
          World.single "a.cpp".toList "int x;\n  strcpy (dest, src);".toList) ∧
      f ∈ new ∧ f.function = "strcpy".toList ∧ f.lineNumber = 1 + 1 ∧
      f.severity =
        if "strcpy".toList = "strcpy".toList ∨ "strcpy".toList = "gets".toList then "High".toList
        else "Medium".toList :=
  unsafe_call_reported (BufferOverflowDetector.new "a.cpp".toList)
    (World.single "a.cpp".toList "int x;\n  strcpy (dest, src);".toList)
    "int x;\n  strcpy (dest, src);".toList (by decide) 1 "  strcpy (dest, src);".toList
    "  ".toList "strcpy".toList " ".toList "dest, src);".toList
    (by decide) (by decide) (by decide) (by decide) (by decide)

theorem split_first_unique {a : Char} : ∀ {y y' t t' : Str}, (∀ c ∈ y, c ≠ a) →
    (∀ c ∈ y', c ≠ a) → y ++ a :: t = y' ++ a :: t' → y = y' ∧ t = t' := by
  intro y
  induction y with
  | nil =>
    intro y' t t' _ h2 h
    cases y' with
    | nil => simpa using h
    | cons c y' =>
      simp only [List.nil_append, List.cons_append, List.cons.injEq] at h
      exact absurd h.1.symm (h2 c (by simp))
  | cons c y ih =>
    intro y' t t' h1 h2 h
    cases y' with
    | nil =>
      simp only [List.nil_append, List.cons_append, List.cons.injEq] at h
      exact absurd h.1 (h1 c (by simp))
    | cons c' y' =>
      simp only [List.cons_append, List.cons.injEq] at h
      obtain ⟨rfl, h⟩ := h
      obtain ⟨rfl, rfl⟩ := ih (fun d hd => h1 d (by simp [hd])) (fun d hd => h2 d (by simp [hd])) h
      exact ⟨rfl, rfl⟩

theorem split_first {a : Char} : ∀ {l : Str}, a ∈ l →
    ∃ l1 l2, l = l1 ++ a :: l2 ∧ ∀ c ∈ l1, c ≠ a := by
  intro l
  induction l with
  | nil => intro h; simp at h
  | cons c l ih =>
    intro h
    by_cases hc : c = a
    · subst hc
      exact ⟨[], l, rfl, by simp⟩
    · have hl : a ∈ l := by
        rcases List.mem_cons.1 h with h | h
        · exact absurd h.symm hc
        · exact h
      obtain ⟨l1, l2, h1, h2⟩ := ih hl
      refine ⟨c :: l1, l2, by simp [h1], ?_⟩
      intro d hd
      rcases List.mem_cons.1 hd with rfl | hd
      · exact hc
      · exact h2 d hd

theorem group_take {s xs t : Str} (h : s = xs ++ t) : s.take (s.length - t.length) = xs := by
  subst h
  simp

theorem notChr_iff {a c : Char} : notChr a c = true ↔ c ≠ a := by
  simp [notChr]

/-- The shape of a match of the array-access pattern. -/
theorem arrayAccess_mem {l : Bool} {s : Str} {e : Cursor}
    (h : e ∈ run arrayAccessRegex ⟨l, s, []⟩) :
    ∃ y t, s = '[' :: y ++ ']' :: t ∧ y ≠ [] ∧ (∀ c ∈ y, c ≠ ']') ∧ e.rest = t ∧
      e.caps = [(1, y)] := by
  simp only [arrayAccessRegex, Regex.cat, mem_run_seq, mem_run_group, mem_run_plus,
    mem_run_chr] at h
  obtain ⟨d, ⟨u, hu, rfl⟩, d1, ⟨d2, ⟨x, xs, h1, hx, hxs, h2⟩, rfl⟩, t, h3, rfl⟩ := h
  simp only at hu h1 h2 h3
  subst hu
  rw [h3] at h1
  refine ⟨x :: xs, t, by simp [h1], by simp, ?_, rfl, ?_⟩
  · intro c hc
    rcases List.mem_cons.1 hc with rfl | hc
    · exact notChr_iff.1 hx
    · exact notChr_iff.1 (hxs c hc)
  · rw [h2]
    dsimp only
    rw [h3, group_take (show u = (x :: xs) ++ ']' :: t from h1)]

/-- The array-access pattern matches at every non-empty bracketed text without `]`. -/
theorem arrayAccess_complete {y t : Str} (hy : y ≠ []) (hny : ∀ c ∈ y, c ≠ ']') (l : Bool)
    (n : Nat) : (matchHere arrayAccessRegex l n ('[' :: y ++ ']' :: t)).isSome = true := by
  cases hm : matchHere arrayAccessRegex l n ('[' :: y ++ ']' :: t) with
  | some _ => rfl
  | none =>
    exfalso
    rw [matchHere_eq_none] at hm
    obtain ⟨x, xs, rfl⟩ := List.exists_cons_of_ne_nil hy
    have : (⟨isWordChar ']', t, [(1, x :: xs)]⟩ : Cursor) ∈
        run arrayAccessRegex ⟨l, '[' :: (x :: xs) ++ ']' :: t, []⟩ := by
      simp only [arrayAccessRegex, Regex.cat, mem_run_seq, mem_run_group, mem_run_plus,
        mem_run_chr]
      refine ⟨⟨isWordChar '[', (x :: xs) ++ ']' :: t, []⟩, ⟨_, rfl, rfl⟩,
        ⟨lastWord (isWordChar '[') (x :: xs), ']' :: t, [(1, x :: xs)]⟩,
        ⟨⟨lastWord (isWordChar '[') (x :: xs), ']' :: t, []⟩,
          ⟨x, xs, rfl, notChr_iff.2 (hny x (by simp)),
            fun c hc => notChr_iff.2 (hny c (by simp [hc])), rfl⟩, ?_⟩,
        t, rfl, rfl⟩
      dsimp only
      rw [group_take (show (x :: xs) ++ ']' :: t = (x :: xs) ++ ']' :: t from rfl)]
    rw [hm] at this
    cases this

/-- A match of the array-access pattern that starts at a `[` which is closed
inside `c` ends inside `c`. -/
theorem arrayAccess_no_overlap {c u : Str} {l : Bool} {n : Nat} {m : MatchResult}
    (hc : ∀ a b, c = a ++ '[' :: b → ']' ∈ b) (hcn : c ≠ [])
    (hm : matchHere arrayAccessRegex l n (c ++ u) = some m) : m.length ≤ c.length := by
  obtain ⟨e, _, hmem, h1, h2, _, _, _, h3⟩ := matchHere_some hm
  obtain ⟨y, t, hs, _, hy, ht, _⟩ := arrayAccess_mem hmem
  have hW : m.whole = '[' :: y ++ [']'] := by
    have : m.whole ++ m.suffix = ('[' :: y ++ [']']) ++ t := by rw [← h1, hs]; simp
    rw [h3, ht] at this
    exact List.append_cancel_right this
  cases c with
  | nil => exact absurd rfl hcn
  | cons c0 c =>
    simp only [List.cons_append, List.cons.injEq] at hs
    obtain ⟨rfl, hs⟩ := hs
    obtain ⟨c1, c2, hc12, hc1⟩ := split_first (hc [] c rfl)
    rw [hc12, List.append_assoc, List.cons_append] at hs
    obtain ⟨rfl, _⟩ := split_first_unique hc1 hy hs
    rw [h2, hW, hc12]
    simp

theorem identStart_word {c : Char} (h : isIdentStart c = true) : isWordChar c = true := by
  simp only [isIdentStart, Bool.or_eq_true] at h
  simp only [isWordChar, Bool.or_eq_true]
  rcases h with (h | h) | h
  · exact Or.inl (Or.inl (Or.inl h))
  · exact Or.inl (Or.inl (Or.inr h))
  · exact Or.inr h

theorem word_ne_rbracket {c : Char} (h : isWordChar c = true) : c ≠ ']' := by
  rintro rfl
  revert h
  decide

theorem identifier_chars {x : Str} (h : isIdentifier x = true) :
    x ≠ [] ∧ ∀ c ∈ x, isWordChar c = true := by
  cases x with
  | nil => simp [isIdentifier] at h
  | cons c t =>
    simp only [isIdentifier, Bool.and_eq_true, List.all_eq_true] at h
    refine ⟨by simp, ?_⟩
    intro d hd
    rcases List.mem_cons.1 hd with rfl | hd
    · exact identStart_word h.1
    · exact h.2 d hd

/-- The test `std::regex_match(indexExpr, [a-zA-Z_][a-zA-Z0-9_]*)` accepts exactly the identifiers. -/
theorem regex_match_identifier (x : Str) :
    regex_match identifierRegex x = isIdentifier x := by
  rw [Bool.eq_iff_iff]
  simp only [regex_match, List.any_eq_true, identifierRegex, mem_run_seq, mem_run_set,
    mem_run_star, List.isEmpty_iff]
  constructor
  · rintro ⟨e, ⟨d, ⟨c, t, h1, h2, rfl⟩, xs, h3, h4, _⟩, h5⟩
    simp only at h1 h3
    rw [h5, List.append_nil] at h3
    subst h3
    subst h1
    simp only [isIdentifier, Bool.and_eq_true, List.all_eq_true]
    exact ⟨h2, h4⟩
  · intro h
    cases x with
    | nil => simp [isIdentifier] at h
    | cons c t =>
      simp only [isIdentifier, Bool.and_eq_true, List.all_eq_true] at h
      exact ⟨⟨lastWord (isWordChar c) t, [], []⟩,
        ⟨⟨isWordChar c, t, []⟩, ⟨c, t, rfl, h.1, rfl⟩, t, by simp, h.2, rfl⟩, rfl⟩

theorem str_one_of_groups {m : MatchResult} {x : Str} (h : m.groups = [(1, x)]) :
    m.str 1 = x := by
  simp [MatchResult.str, MatchResult.sub, h]

/-- C2 (counterexample): the line `x[y[i]]` contains the bracketed identifier
`[i]`, yet `checkLineForVulnerabilities` appends nothing for it. -/
theorem nested_bracket_not_reported :
    (∃ pre post, "x[y[i]]".toList = pre ++ '[' :: "i".toList ++ ']' :: post) ∧
    isIdentifier "i".toList = true ∧
    checkLineForVulnerabilities "x[y[i]]".toList 1 [] = some [] :=
  ⟨⟨"x[y".toList, "]".toList, by decide⟩, by decide, by decide⟩

/-- C2 (amended): for every line and every bracketed expression `[x]` in it
whose contents `x` are a single identifier and which is not inside an earlier
bracket (every `[` before it is followed by a `]` before it),
`checkLineForVulnerabilities` returns and appends a record with subject
"Array access", severity Medium and description
"Unchecked array access with variable: x". -/
theorem array_access_reported (line pre x post : Str) (lineNumber : Nat)
    (vs : List VulnerabilityInfo) (hshape : line = pre ++ '[' :: x ++ ']' :: post)
    (hx : isIdentifier x = true) (hpre : ∀ a b, pre = a ++ '[' :: b → ']' ∈ b) :
    ∃ new, checkLineForVulnerabilities line lineNumber vs = some (vs ++ new) ∧
      arrayAccessInfo lineNumber x ∈ new := by
  obtain ⟨hxne, hxw⟩ := identifier_chars hx
  have hxr : ∀ c ∈ x, c ≠ ']' := fun c hc => word_ne_rbracket (hxw c hc)
  have hreach := @scan_reach arrayAccessRegex (by decide) (line.length + 1) pre
    ('[' :: x ++ ']' :: post) (by rw [hshape]; simp)
    (fun a b _ n => arrayAccess_complete hxne hxr _ n)
    (by
      intro a c hac hc l n m hm
      refine arrayAccess_no_overlap ?_ hc hm
      intro a' b hab
      exact hpre (a ++ a') b (by rw [hac, hab]; simp))
  obtain ⟨m, hm, a, b, _, hmatch⟩ := hreach
  obtain ⟨e, _, hmem, _, _, _, _, hg, _⟩ := matchHere_some hmatch
  obtain ⟨y, t, hs, _, hy, _, hcaps⟩ := arrayAccess_mem hmem
  simp only [List.cons_append, List.cons.injEq, true_and] at hs
  obtain ⟨hxy, _⟩ := split_first_unique hxr hy hs
  subst hxy
  have hstr : m.str 1 = x := str_one_of_groups (by rw [hg, hcaps])
  refine ⟨lineOutput line lineNumber, checkLine_eq line lineNumber vs, ?_⟩
  simp only [lineOutput, List.mem_append]
  right
  simp only [arrayFindings, List.mem_flatMap]
  have hl : pre ++ ('[' :: x ++ ']' :: post) = line := by rw [hshape]; simp
  rw [hl] at hm
  refine ⟨m, hm, ?_⟩
  simp [arrayBody, hstr, regex_match_identifier, hx, arrayAccessInfo]

/-- C2 (witness): the second bracket of the line `a[0] = b[idx];`. -/
theorem array_access_reported_witness :
    ∃ new, checkLineForVulnerabilities "a[0] = b[idx];".toList 3 [] = some ([] ++ new) ∧
      arrayAccessInfo 3 "idx".toList ∈ new :=
  array_access_reported "a[0] = b[idx];".toList "a[0] = b".toList "idx".toList ";".toList 3 []
    (by decide) (by decide)
    (by
      intro a b h
      have hb : b = "0] = b".toList := by
        rcases a with _ | ⟨a0, _ | ⟨a1, a⟩⟩
        · simp at h
        · simp at h; exact h.2.symm
        · exfalso
          have h1 : ('0' :: ']' :: ' ' :: '=' :: ' ' :: 'b' :: []) = a ++ '[' :: b := by
            simp at h; exact h.2.2
          have : '[' ∈ ('0' :: ']' :: ' ' :: '=' :: ' ' :: 'b' :: []) := by rw [h1]; simp
          revert this
          decide
      subst hb
      decide)

/-- C3 (code_bug, the code at the failing input): in `twoLoopsFile` the second
loop starts at offset 46, on line 3 (two newlines precede it), but
`detectLoopBoundaries` gives its record line number 1: the count of newlines
runs over the first `matches.position()` characters of the file, and the
position of a later match is relative to the end of the previous match. -/
theorem later_match_line_number_wrong :
    twoLoopsFile.drop 46 = "for (j = 0; j <= n; j++) \x7b b[j] = 0; \x7d\n".toList ∧
    (twoLoopsFile.take 46).count '\n' + 1 = 3 ∧
    lineNumbers (detectLoopBoundaries (BufferOverflowDetector.new "a.cpp".toList)
      (World.single "a.cpp".toList twoLoopsFile)) = some [1, 1] := by
  decide

/-- C4 (code_bug, the code at the failing input): `twoFunctionsFile` holds
the definition `void f(char* p) { p[0] = 'a'; }` at offset 46, and
`analyzeFunctionCalls` appends nothing, while for a file that holds only this
definition it appends the record with subject `f`: for a match after the
first, `funcStartPos` is not the position of the opening brace. -/
theorem later_function_not_reported :
    twoFunctionsFile.drop 46 = "void f(char* p) \x7b p[0] = 'a'; \x7d\n".toList ∧
    findings (analyzeFunctionCalls (BufferOverflowDetector.new "a.cpp".toList)
      (World.single "a.cpp".toList twoFunctionsFile)) = some [] ∧
    findings (analyzeFunctionCalls (BufferOverflowDetector.new "a.cpp".toList)
      (World.single "a.cpp".toList "void f(char* p) \x7b p[0] = 'a'; \x7d\n".toList)) =
      some [{ function := "f".toList, lineNumber := 1,
              description :=
                "Function with pointer/array parameters may have unchecked writes".toList,
              severity := "Medium".toList }] := by
  decide

/-- C5 (code_bug, the code at the failing input): the condition ` i < size`
is not recognised as a bound check, and `detectLoopBoundaries` appends a
"Loop boundary" record for the loop
`for (int i = 0; i < size; i++) { buffer[i] = 'A'; }`. -/
theorem plain_less_than_flagged :
    regex_search boundCheckRegex " i < size".toList = none ∧
    findings (detectLoopBoundaries (BufferOverflowDetector.new "a.cpp".toList)
      (World.single "a.cpp".toList
        "for (int i = 0; i < size; i++) \x7b\n    buffer[i] = 'A';\n\x7d".toList)) =
      some [{ function := "Loop boundary".toList, lineNumber := 1,
              description := "Loop may have improper boundary checking for array access".toList,
              severity := "Medium".toList }] := by
  decide

/-- C6 (code_bug, the code at the failing input): on `twoCallsLine` the
second match `gets(` starts at offset 58 of the line, so its excerpt should
begin at offset 38 and contain `gets(`; the code takes the excerpt from
offset 0: 45 blanks. -/
theorem later_match_context_wrong :
    twoCallsLine.drop 58 = "gets(b);".toList ∧
    (checkLineForVulnerabilities twoCallsLine 1 []).map (fun vs => vs.map fun v => v.description) =
      some ["Unsafe C string function in context: ".toList ++
              List.replicate 20 ' ' ++ "gets(a);gets(b);".toList,
            "Unsafe C string function in context: ".toList ++ List.replicate 45 ' '] := by
  decide

/-- C7 (counterexample): for the line
`strcpy(destination_buffer, source_buffer_with_a_long_name);` the excerpt in
the description of the record is 47 characters long. -/
theorem context_longer_than_forty :
    ∃ f ctx,
      checkLineForVulnerabilities
        "strcpy(destination_buffer, source_buffer_with_a_long_name);".toList 1 [] = some [f] ∧
      f.description = "Unsafe C string function".toList ++ " in context: ".toList ++ ctx ∧
      40 < ctx.length :=
  ⟨{ function := "strcpy".toList, lineNumber := 1,
     description := "Unsafe C string function".toList ++ " in context: ".toList ++
       "strcpy(destination_buffer, source_buffer_with_a".toList,
     severity := "High".toList },
   "strcpy(destination_buffer, source_buffer_with_a".toList, by decide, by decide, by decide⟩

theorem contextOf_length (line : Str) (m : MatchResult) :
    (contextOf line m).length ≤ m.length + 40 ∧ (contextOf line m).length ≤ line.length := by
  simp only [contextOf, substr, List.length_take, List.length_drop]
  split <;> split <;> omega

/-- C7 (amended): for every line and every match of a vulnerable-construct
pattern on it, the context excerpt in the description of the record is at
most 40 characters longer than the match, and at most as long as the line. -/
theorem context_excerpt_bound (line : Str) (lineNumber : Nat) (vs : List VulnerabilityInfo) :
    ∃ new, checkVulnerablePatterns line lineNumber vs = some (vs ++ new) ∧
      ∀ f ∈ new, ∃ pattern ∈ vulnerablePatterns,
        ∃ m ∈ scanMatches pattern.1 (line.length + 1) line,
          f.description = pattern.2 ++ " in context: ".toList ++ contextOf line m ∧
          (contextOf line m).length ≤ m.length + 40 ∧
          (contextOf line m).length ≤ line.length := by
  refine ⟨vulnerableFindings line lineNumber,
    foldlM_patterns line lineNumber _ vulnerablePatterns_minLen vs, ?_⟩
  intro f hf
  simp only [vulnerableFindings, List.mem_flatMap, List.mem_map] at hf
  obtain ⟨pattern, hp, m, hm, rfl⟩ := hf
  exact ⟨pattern, hp, m, hm, rfl, contextOf_length line m⟩

theorem mem_run_lit_seq {w : Str} {r : Regex} {c e : Cursor} :
    e ∈ run (.seq (lit w) r) c ↔
      ∃ t, c.rest = w ++ t ∧ e ∈ run r ⟨lastWord c.leftWord w, t, c.caps⟩ := by
  simp only [mem_run_seq, mem_run_lit]
  constructor
  · rintro ⟨d, ⟨t, h1, rfl⟩, h2⟩; exact ⟨t, h1, h2⟩
  · rintro ⟨t, h1, h2⟩; exact ⟨_, ⟨t, h1, rfl⟩, h2⟩

theorem mem_run_star_chr {p : Char → Bool} {a : Char} {c e : Cursor} :
    e ∈ run (.seq (.star p) (.chr a)) c ↔
      ∃ xs t, c.rest = xs ++ a :: t ∧ (∀ x ∈ xs, p x = true) ∧ e = ⟨isWordChar a, t, c.caps⟩ := by
  simp only [mem_run_seq, mem_run_star, mem_run_chr]
  constructor
  · rintro ⟨d, ⟨xs, h1, h2, h3⟩, t, h4, rfl⟩
    rw [h4] at h1
    rw [h3]
    exact ⟨xs, t, h1, h2, rfl⟩
  · rintro ⟨xs, t, h1, h2, rfl⟩
    exact ⟨⟨lastWord c.leftWord xs, a :: t, c.caps⟩, ⟨xs, h1, h2, rfl⟩, t, rfl, rfl⟩

theorem mem_run_star_chr_seq {p : Char → Bool} {a : Char} {r : Regex} {c e : Cursor} :
    e ∈ run (.seq (.star p) (.seq (.chr a) r)) c ↔
      ∃ xs t, c.rest = xs ++ a :: t ∧ (∀ x ∈ xs, p x = true) ∧
        e ∈ run r ⟨isWordChar a, t, c.caps⟩ := by
  constructor
  · intro h
    obtain ⟨d, hd, h⟩ := mem_run_seq.1 h
    obtain ⟨d', hd', h⟩ := mem_run_seq.1 h
    obtain ⟨xs, t, h1, h2, rfl⟩ := mem_run_star_chr.1 (mem_run_seq.2 ⟨d, hd, hd'⟩)
    exact ⟨xs, t, h1, h2, h⟩
  · rintro ⟨xs, t, h1, h2, h⟩
    obtain ⟨d, hd, hd'⟩ := mem_run_seq.1 (mem_run_star_chr.2 ⟨xs, t, h1, h2, rfl⟩)
    exact mem_run_seq.2 ⟨d, hd, mem_run_seq.2 ⟨_, hd', h⟩⟩

theorem mem_run_group_star_chr {n : Nat} {p : Char → Bool} {a : Char} {c e : Cursor} :
    e ∈ run (.seq (.group n (.star p)) (.chr a)) c ↔
      ∃ xs t, c.rest = xs ++ a :: t ∧ (∀ x ∈ xs, p x = true) ∧
        e = ⟨isWordChar a, t, (n, xs) :: c.caps⟩ := by
  simp only [mem_run_seq, mem_run_group, mem_run_star, mem_run_chr]
  constructor
  · rintro ⟨d, ⟨d', ⟨xs, h1, h2, h3⟩, rfl⟩, t, h4, rfl⟩
    simp only at h4
    rw [h4] at h1
    refine ⟨xs, t, h1, h2, ?_⟩
    rw [h3]
    simp only [Cursor.mk.injEq, List.cons.injEq, Prod.mk.injEq, true_and, and_true]
    rw [h4]
    exact group_take h1
  · rintro ⟨xs, t, h1, h2, rfl⟩
    refine ⟨⟨lastWord c.leftWord xs, a :: t, (n, xs) :: c.caps⟩,
      ⟨⟨lastWord c.leftWord xs, a :: t, c.caps⟩, ⟨xs, h1, h2, rfl⟩, ?_⟩, t, rfl, rfl⟩
    simp only [Cursor.mk.injEq, List.cons.injEq, Prod.mk.injEq, true_and, and_true]
    exact (group_take h1).symm

theorem mem_run_group_star_chr_seq {n : Nat} {p : Char → Bool} {a : Char} {r : Regex}
    {c e : Cursor} :
    e ∈ run (.seq (.group n (.star p)) (.seq (.chr a) r)) c ↔
      ∃ xs t, c.rest = xs ++ a :: t ∧ (∀ x ∈ xs, p x = true) ∧
        e ∈ run r ⟨isWordChar a, t, (n, xs) :: c.caps⟩ := by
  constructor
  · intro h
    obtain ⟨d, hd, h⟩ := mem_run_seq.1 h
    obtain ⟨d', hd', h⟩ := mem_run_seq.1 h
    obtain ⟨xs, t, h1, h2, rfl⟩ := mem_run_group_star_chr.1 (mem_run_seq.2 ⟨d, hd, hd'⟩)
    exact ⟨xs, t, h1, h2, h⟩
  · rintro ⟨xs, t, h1, h2, h⟩
    obtain ⟨d, hd, hd'⟩ := mem_run_seq.1 (mem_run_group_star_chr.2 ⟨xs, t, h1, h2, rfl⟩)
    exact mem_run_seq.2 ⟨d, hd, mem_run_seq.2 ⟨_, hd', h⟩⟩

/-- The shape of a match of the loop pattern and the groups it captures. -/
theorem loop_mem_iff {l : Bool} {s : Str} {e : Cursor} :
    e ∈ run loopRegex ⟨l, s, []⟩ ↔
      ∃ t0, s = "for".toList ++ t0 ∧
      ∃ sp1 t1, t0 = sp1 ++ '(' :: t1 ∧ (∀ x ∈ sp1, isSpaceChar x = true) ∧
      ∃ init t2, t1 = init ++ ';' :: t2 ∧ (∀ x ∈ init, notChr ';' x = true) ∧
      ∃ cond t3, t2 = cond ++ ';' :: t3 ∧ (∀ x ∈ cond, notChr ';' x = true) ∧
      ∃ inc t4, t3 = inc ++ ')' :: t4 ∧ (∀ x ∈ inc, notChr ')' x = true) ∧
      ∃ sp2 t5, t4 = sp2 ++ '{' :: t5 ∧ (∀ x ∈ sp2, isSpaceChar x = true) ∧
      ∃ body t, t5 = body ++ '}' :: t ∧ (∀ x ∈ body, notChr '}' x = true) ∧
        e = ⟨isWordChar '}', t, [(4, body), (3, inc), (2, cond), (1, init)]⟩ := by
  simp only [loopRegex, Regex.cat, ws, mem_run_lit_seq, mem_run_star_chr_seq,
    mem_run_group_star_chr_seq, mem_run_group_star_chr]

theorem lit_for : lit "for".toList = .seq (.chr 'f') (.seq (.chr 'o') (.seq (.chr 'r') .eps)) := rfl

/-- The loop pattern starts with a letter, so what precedes the start of an
attempt does not matter. -/
theorem loop_left (l : Bool) (s : Str) :
    run loopRegex ⟨l, s, []⟩ = run loopRegex ⟨false, s, []⟩ := by
  cases s with
  | nil => simp only [loopRegex, Regex.cat, lit_for, run, List.flatMap_nil]
  | cons x t => simp only [loopRegex, Regex.cat, lit_for, run, step]

theorem matchHere_loop_left (l : Bool) (n : Nat) (s : Str) :
    matchHere loopRegex l n s = matchHere loopRegex false n s := by
  simp only [matchHere, loop_left l s]

theorem matchHere_length {re : Regex} {l : Bool} {n k : Nat} {s : Str} {m : MatchResult}
    (h : matchHere re l n s = some m) :
    ∃ m', matchHere re l k s = some m' ∧ m'.length = m.length := by
  simp only [matchHere, Option.map_eq_some'] at h ⊢
  obtain ⟨e, he, rfl⟩ := h
  exact ⟨_, ⟨e, he, rfl⟩, rfl⟩

theorem space_ne_paren {x : Char} (h : isSpaceChar x = true) : x ≠ '(' ∧ x ≠ '{' := by
  simp only [isSpaceChar, Bool.or_eq_true, beq_iff_eq] at h
  rcases h with ((((rfl | rfl) | rfl) | rfl) | rfl) | rfl <;> decide

theorem leLoopText_eq (init inc body post : Str) :
    leLoopText init inc body post =
      "for".toList ++ (" ".toList ++ '(' :: (init ++ ';' :: (" i <= size".toList ++ ';' ::
        ((' ' :: inc) ++ ')' :: (" ".toList ++ '{' :: (body ++ '}' :: post)))))) := by
  simp [leLoopText]

/-- A match of the loop pattern at the text of such a loop captures the
condition ` i <= size` and the body. -/
theorem leLoop_match {init inc body post : Str} {l : Bool} {n : Nat} {m : MatchResult}
    (hinit : ∀ c ∈ init, c ≠ ';') (hinc : ∀ c ∈ inc, c ≠ ')') (hbody : ∀ c ∈ body, c ≠ '}')
    (hm : matchHere loopRegex l n (leLoopText init inc body post) = some m) :
    m.str 2 = " i <= size".toList ∧ m.str 4 = body := by
  obtain ⟨e, _, hmem, _, _, _, _, hg, _⟩ := matchHere_some hm
  rw [leLoopText_eq] at hmem
  obtain ⟨t0, h0, sp1, t1, h1, hsp1, init', t2, h2, hi', cond, t3, h3, hc', inc', t4, h4, hn',
    sp2, t5, h5, hsp2, body', t, h6, hb', rfl⟩ := loop_mem_iff.1 hmem
  have h0' := List.append_cancel_left h0
  subst h0'
  obtain ⟨-, rfl⟩ := split_first_unique (a := '(') (by decide)
    (fun x hx => (space_ne_paren (hsp1 x hx)).1) h1
  obtain ⟨-, rfl⟩ := split_first_unique hinit (fun x hx => notChr_iff.1 (hi' x hx)) h2
  obtain ⟨rfl, rfl⟩ := split_first_unique (a := ';') (by decide)
    (fun x hx => notChr_iff.1 (hc' x hx)) h3
  obtain ⟨-, rfl⟩ := split_first_unique (a := ')') (y := ' ' :: inc)
    (by
      intro x hx
      rcases List.mem_cons.1 hx with rfl | hx
      · decide
      · exact hinc x hx)
    (fun x hx => notChr_iff.1 (hn' x hx)) h4
  obtain ⟨-, rfl⟩ := split_first_unique (a := '{') (by decide)
    (fun x hx => (space_ne_paren (hsp2 x hx)).2) h5
  obtain ⟨rfl, -⟩ := split_first_unique hbody (fun x hx => notChr_iff.1 (hb' x hx)) h6
  simp [MatchResult.str, MatchResult.sub, hg]

/-- The loop pattern matches at the text of such a loop. -/
theorem leLoop_complete {init inc body post : Str} (hinit : ∀ c ∈ init, c ≠ ';')
    (hinc : ∀ c ∈ inc, c ≠ ')') (hbody : ∀ c ∈ body, c ≠ '}') (l : Bool) (n : Nat) :
    (matchHere loopRegex l n (leLoopText init inc body post)).isSome = true := by
  cases hm : matchHere loopRegex l n (leLoopText init inc body post) with
  | some _ => rfl
  | none =>
    exfalso
    rw [matchHere_eq_none] at hm
    have : (⟨isWordChar '}', post, [(4, body), (3, ' ' :: inc), (2, " i <= size".toList),
        (1, init)]⟩ : Cursor) ∈ run loopRegex ⟨l, leLoopText init inc body post, []⟩ := by
      rw [leLoopText_eq]
      refine loop_mem_iff.2 ⟨_, rfl, " ".toList, _, rfl, by decide, init, _, rfl,
        fun x hx => notChr_iff.2 (hinit x hx), " i <= size".toList, _, rfl, by decide,
        ' ' :: inc, _, rfl, ?_, " ".toList, _, rfl, by decide, body, _, rfl,
        fun x hx => notChr_iff.2 (hbody x hx), rfl⟩
      intro x hx
      rcases List.mem_cons.1 hx with rfl | hx
      · decide
      · exact notChr_iff.2 (hinc x hx)
    rw [hm] at this
    cases this

theorem loopBoundaryBody_eq (content : Str) (m : MatchResult) (vs : List VulnerabilityInfo) :
    loopBoundaryBody content m vs = vs ++ loopBoundaryBody content m [] := by
  simp only [loopBoundaryBody]
  split
  · split <;> simp
  · simp

/-- The method `detectLoopBoundaries` always returns, having appended `loopFindings`. -/
theorem detectLoopBoundaries_eq {d : BufferOverflowDetector} {w : World} {content : Str}
    (hopen : w.files d.fileName = some content) :
    detectLoopBoundaries d w =
      some ({ d with vulnerabilities := d.vulnerabilities ++ loopFindings content }, w) := by
  simp only [detectLoopBoundaries, hopen]
  rw [scanLoop_eq _ loopRegex_minLen _ _ _ (Nat.lt_add_one _)]
  rw [foldl_append_body (fun m => loopBoundaryBody content m []) (loopBoundaryBody content)
    (loopBoundaryBody_eq content)]
  rfl

theorem functionCallBody_eq (content : Str) (m : MatchResult) (vs : List VulnerabilityInfo) :
    functionCallBody content m vs = vs ++ functionCallBody content m [] := by
  simp only [functionCallBody]
  split
  · split
    · split <;> simp
    · simp
  · simp

/-- The method `analyzeFunctionCalls` always returns, having appended `functionFindings`. -/
theorem analyzeFunctionCalls_eq {d : BufferOverflowDetector} {w : World} {content : Str}
    (hopen : w.files d.fileName = some content) :
    analyzeFunctionCalls d w =
      some ({ d with vulnerabilities := d.vulnerabilities ++ functionFindings content }, w) := by
  simp only [analyzeFunctionCalls, hopen]
  rw [scanLoop_eq _ funcRegex_minLen _ _ _ (Nat.lt_add_one _)]
  rw [foldl_append_body (fun m => functionCallBody content m []) (functionCallBody content)
    (functionCallBody_eq content)]
  rfl

/-- The bracket pattern matches at every non-empty bracketed text without `]`. -/
theorem bracket_complete {y t : Str} (hy : y ≠ []) (hny : ∀ c ∈ y, c ≠ ']') (l : Bool)
    (n : Nat) : (matchHere bracketRegex l n ('[' :: y ++ ']' :: t)).isSome = true := by
  cases hm : matchHere bracketRegex l n ('[' :: y ++ ']' :: t) with
  | some _ => rfl
  | none =>
    exfalso
    rw [matchHere_eq_none] at hm
    obtain ⟨x, xs, rfl⟩ := List.exists_cons_of_ne_nil hy
    have : (⟨isWordChar ']', t, []⟩ : Cursor) ∈
        run bracketRegex ⟨l, '[' :: (x :: xs) ++ ']' :: t, []⟩ := by
      simp only [bracketRegex, Regex.cat, mem_run_seq, mem_run_plus, mem_run_chr]
      exact ⟨⟨isWordChar '[', (x :: xs) ++ ']' :: t, []⟩, ⟨_, rfl, rfl⟩,
        ⟨lastWord (isWordChar '[') (x :: xs), ']' :: t, []⟩,
        ⟨x, xs, rfl, notChr_iff.2 (hny x (by simp)),
          fun c hc => notChr_iff.2 (hny c (by simp [hc])), rfl⟩, t, rfl, rfl⟩
    rw [hm] at this
    cases this

/-- A text that holds a non-empty bracketed expression is found by the bracket search. -/
theorem bracket_search {b1 x b2 : Str} (hx : x ≠ []) (hxr : ∀ c ∈ x, c ≠ ']') :
    (regex_search bracketRegex (b1 ++ ('[' :: x ++ ']' :: b2))).isSome = true :=
  searchFrom_isSome b1 _ false 0 0 (bracket_complete hx hxr _ 0)

/-- C8 (counterexample): the file holds the loop
`for (i = 0; i <= size; i++) { a[i] = 0; }` inside the body of another loop
whose condition is `j < v.size()`, and `detectLoopBoundaries` appends nothing. -/
theorem nested_le_loop_not_reported :
    ∃ pre,
      "for (j = 0; j < v.size(); j++) \x7b for (i = 0; i <= size; i++) \x7b a[i] = 0; \x7d \x7d".toList =
        pre ++ leLoopText "i = 0".toList "i++".toList " a[i] = 0; ".toList " \x7d".toList ∧
      findings (detectLoopBoundaries (BufferOverflowDetector.new "a.cpp".toList)
        (World.single "a.cpp".toList
          "for (j = 0; j < v.size(); j++) \x7b for (i = 0; i <= size; i++) \x7b a[i] = 0; \x7d \x7d".toList)) =
        some [] :=
  ⟨"for (j = 0; j < v.size(); j++) \x7b ".toList, by decide, by decide⟩

/-- C8 (amended): for every file that opens and contains a loop
`for (init; i <= size; inc) { body }` whose init contains no `;`, whose inc
contains no `)`, whose body contains no `}` and contains a non-empty bracketed
expression, and which does not start inside an earlier match of the loop
pattern (no match of the pattern that starts before the loop runs past the
start of the loop), `detectLoopBoundaries` returns and appends a record with
subject "Loop boundary", description "Loop may have improper boundary
checking for array access" and severity Medium. -/
theorem le_loop_reported (d : BufferOverflowDetector) (w : World)
    (content pre init inc body post b1 x b2 : Str)
    (hopen : w.files d.fileName = some content)
    (hshape : content = pre ++ leLoopText init inc body post)
    (hinit : ∀ c ∈ init, c ≠ ';') (hinc : ∀ c ∈ inc, c ≠ ')') (hbody : ∀ c ∈ body, c ≠ '}')
    (hbracket : body = b1 ++ ('[' :: x ++ ']' :: b2)) (hx : x ≠ []) (hxr : ∀ c ∈ x, c ≠ ']')
    (hfree : ∀ q, q < pre.length →
      endsBy (matchHere loopRegex false q (content.drop q)) (pre.length - q) = true) :
    ∃ new n,
      detectLoopBoundaries d w =
        some ({ d with vulnerabilities := d.vulnerabilities ++ new }, w) ∧
      loopBoundaryInfo n ∈ new := by
  have hreach := @scan_reach loopRegex loopRegex_minLen (content.length + 1) pre
    (leLoopText init inc body post) (by rw [hshape]; simp)
    (fun a b _ n => leLoop_complete hinit hinc hbody _ n)
    (by
      intro a c hac hc l n m hm
      rw [matchHere_loop_left] at hm
      obtain ⟨m', hm', hlen⟩ := matchHere_length (k := a.length) hm
      have hq : a.length < pre.length := by
        have : c.length ≠ 0 := fun h => hc (List.length_eq_zero.1 h)
        rw [hac]
        simp
        omega
      have hdrop : content.drop a.length = c ++ leLoopText init inc body post := by
        rw [hshape, hac]
        simp
      have := hfree a.length hq
      rw [hdrop, hm'] at this
      simp only [endsBy, decide_eq_true_eq] at this
      rw [hac] at this
      simp at this
      omega)
  obtain ⟨m, hm, a, b, _, hmatch⟩ := hreach
  obtain ⟨hcond, hbd⟩ := leLoop_match hinit hinc hbody hmatch
  rw [← hshape] at hm
  refine ⟨loopFindings content, (content.take m.position).count '\n' + 1,
    detectLoopBoundaries_eq hopen, ?_⟩
  simp only [loopFindings, List.mem_flatMap]
  refine ⟨m, hm, ?_⟩
  have hb : (regex_search bracketRegex body).isSome = true := by
    rw [hbracket]
    exact bracket_search hx hxr
  have hc : regex_search boundCheckRegex " i <= size".toList = none := by decide
  simp only [loopBoundaryBody, hcond, hbd, hb, hc]
  simp [loopBoundaryInfo]

/-- C8 (witness): the loop on line 2 of the file
`int n;\nfor (i = 0; i <= size; i++) { a[i] = 0; }`. -/
theorem le_loop_reported_witness :
    ∃ new n,
      detectLoopBoundaries (BufferOverflowDetector.new "a.cpp".toList)
        (World.single "a.cpp".toList
          "int n;\nfor (i = 0; i <= size; i++) \x7b a[i] = 0; \x7d".toList) =
        some ({ BufferOverflowDetector.new "a.cpp".toList with
                vulnerabilities :=
                  (BufferOverflowDetector.new "a.cpp".toList).vulnerabilities ++ new },
              World.single "a.cpp".toList
                "int n;\nfor (i = 0; i <= size; i++) \x7b a[i] = 0; \x7d".toList) ∧
      loopBoundaryInfo n ∈ new :=
  le_loop_reported (BufferOverflowDetector.new "a.cpp".toList)
    (World.single "a.cpp".toList "int n;\nfor (i = 0; i <= size; i++) \x7b a[i] = 0; \x7d".toList)
    "int n;\nfor (i = 0; i <= size; i++) \x7b a[i] = 0; \x7d".toList "int n;\n".toList
    "i = 0".toList "i++".toList " a[i] = 0; ".toList [] " a".toList "i".toList " = 0; ".toList
    (by decide) (by decide) (by decide) (by decide) (by decide) (by decide) (by decide)
    (by decide) (by decide)

/-- The bound-check pattern matches at `a sp1 < sp2 b.size()`, for words `a`
and `b` and white space `sp1`, `sp2`. -/
theorem boundCheck_complete {a sp1 sp2 b q : Str} (ha : a ≠ [])
    (haw : ∀ c ∈ a, isWordChar c = true) (hb : b ≠ []) (hbw : ∀ c ∈ b, isWordChar c = true)
    (hsp1 : ∀ c ∈ sp1, isSpaceChar c = true) (hsp2 : ∀ c ∈ sp2, isSpaceChar c = true)
    (l : Bool) (n : Nat) :
    (matchHere boundCheckRegex l n
      (a ++ (sp1 ++ ('<' :: (sp2 ++ (b ++ (".size()".toList ++ q))))))).isSome = true := by
  cases hm : matchHere boundCheckRegex l n
      (a ++ (sp1 ++ ('<' :: (sp2 ++ (b ++ (".size()".toList ++ q)))))) with
  | some _ => rfl
  | none =>
    exfalso
    rw [matchHere_eq_none] at hm
    obtain ⟨x, xs, rfl⟩ := List.exists_cons_of_ne_nil ha
    obtain ⟨y, ys, rfl⟩ := List.exists_cons_of_ne_nil hb
    have : (⟨lastWord (lastWord (lastWord (isWordChar '<') sp2) (y :: ys)) ".size()".toList, q,
        [(2, ".size()".toList)]⟩ : Cursor) ∈ run boundCheckRegex
          ⟨l, (x :: xs) ++ (sp1 ++ ('<' :: (sp2 ++ ((y :: ys) ++ (".size()".toList ++ q))))),
            []⟩ := by
      simp only [boundCheckRegex, Regex.cat, Regex.alts, word, ws]
      refine mem_run_seq.2 ⟨⟨l, _, []⟩, mem_run_star.2 ⟨[], rfl, by simp, rfl⟩, ?_⟩
      refine mem_run_seq.2 ⟨⟨lastWord l (x :: xs), sp1 ++ _, []⟩,
        mem_run_plus.2 ⟨x, xs, rfl, haw x (by simp), fun c hc => haw c (by simp [hc]), rfl⟩, ?_⟩
      refine mem_run_seq.2 ⟨⟨lastWord (lastWord l (x :: xs)) sp1, '<' :: _, []⟩,
        mem_run_star.2 ⟨sp1, rfl, hsp1, rfl⟩, ?_⟩
      refine mem_run_seq.2 ⟨⟨isWordChar '<', sp2 ++ _, []⟩, mem_run_chr.2 ⟨_, rfl, rfl⟩, ?_⟩
      refine mem_run_seq.2 ⟨⟨lastWord (isWordChar '<') sp2, (y :: ys) ++ _, []⟩,
        mem_run_star.2 ⟨sp2, rfl, hsp2, rfl⟩, ?_⟩
      refine mem_run_seq.2 ⟨⟨lastWord (lastWord (isWordChar '<') sp2) (y :: ys),
          ".size()".toList ++ q, []⟩,
        mem_run_plus.2 ⟨y, ys, rfl, hbw y (by simp), fun c hc => hbw c (by simp [hc]), rfl⟩, ?_⟩
      refine mem_run_seq.2 ⟨_, mem_run_opt.2 (Or.inr rfl), ?_⟩
      refine mem_run_group.2 ⟨⟨_, q, []⟩, mem_run_alt.2 (Or.inl (mem_run_lit.2 ⟨q, rfl, rfl⟩)), ?_⟩
      simp only [Cursor.mk.injEq, List.cons.injEq, Prod.mk.injEq, true_and, and_true]
      exact (group_take rfl).symm
    rw [hm] at this
    cases this

/-- C9: for every file and every match of the loop pattern that the loop of
`detectLoopBoundaries` finds, when the captured condition holds
`a < b.size()` for words (in particular identifiers) `a` and `b`, as in
`i < arr.size()`, the body of the loop appends no record: the collection is
left as it was, whether or not the loop body indexes an array. -/
theorem size_bound_loop_not_reported (content : Str) (m : MatchResult)
    (vs : List VulnerabilityInfo) (p a sp1 sp2 b q : Str)
    (_hm : m ∈ scanMatches loopRegex (content.length + 1) content)
    (hcond : m.str 2 = p ++ a ++ sp1 ++ '<' :: sp2 ++ b ++ ".size()".toList ++ q)
    (ha : a ≠ []) (haw : ∀ c ∈ a, isWordChar c = true)
    (hb : b ≠ []) (hbw : ∀ c ∈ b, isWordChar c = true)
    (hsp1 : ∀ c ∈ sp1, isSpaceChar c = true) (hsp2 : ∀ c ∈ sp2, isSpaceChar c = true) :
    (regex_search boundCheckRegex (m.str 2)).isSome = true ∧
    loopBoundaryBody content m vs = vs := by
  have hT : m.str 2 =
      p ++ (a ++ (sp1 ++ ('<' :: (sp2 ++ (b ++ (".size()".toList ++ q)))))) := by
    rw [hcond]
    simp
  have hs : (regex_search boundCheckRegex (m.str 2)).isSome = true := by
    rw [hT]
    exact searchFrom_isSome p _ false 0 0 (boundCheck_complete ha haw hb hbw hsp1 hsp2 _ 0)
  refine ⟨hs, ?_⟩
  simp only [loopBoundaryBody, hs]
  split <;> simp

/-- C9 (witness): the only loop of the file
`for (i = 0; i < arr.size(); i++) { a[i] = 0; }`. -/
theorem size_bound_loop_not_reported_witness :
    (regex_search boundCheckRegex
      (MatchResult.str
        { position := 0, length := 46,
          whole := "for (i = 0; i < arr.size(); i++) \x7b a[i] = 0; \x7d".toList,
          groups := [(4, " a[i] = 0; ".toList), (3, " i++".toList),
            (2, " i < arr.size()".toList), (1, "i = 0".toList)],
          suffix := [] } 2)).isSome = true ∧
    loopBoundaryBody "for (i = 0; i < arr.size(); i++) \x7b a[i] = 0; \x7d".toList
      { position := 0, length := 46,
        whole := "for (i = 0; i < arr.size(); i++) \x7b a[i] = 0; \x7d".toList,
        groups := [(4, " a[i] = 0; ".toList), (3, " i++".toList),
          (2, " i < arr.size()".toList), (1, "i = 0".toList)],
        suffix := [] } [] = [] :=
  size_bound_loop_not_reported "for (i = 0; i < arr.size(); i++) \x7b a[i] = 0; \x7d".toList
    { position := 0, length := 46,
      whole := "for (i = 0; i < arr.size(); i++) \x7b a[i] = 0; \x7d".toList,
      groups := [(4, " a[i] = 0; ".toList), (3, " i++".toList),
        (2, " i < arr.size()".toList), (1, "i = 0".toList)],
      suffix := [] }
    [] " ".toList "i".toList " ".toList " ".toList "arr".toList []
    (by decide) (by decide) (by decide) (by decide) (by decide) (by decide) (by decide) (by decide)

/-- An expression without capture groups records no capture. -/
theorem run_caps : ∀ (re : Regex), re.hasGroup = false → ∀ (c e : Cursor), e ∈ run re c →
    e.caps = c.caps := by
  intro re
  induction re with
  | eps => intro _ c e h; rw [mem_run_eps.1 h]
  | chr a => intro _ c e h; obtain ⟨t, _, rfl⟩ := mem_run_chr.1 h; rfl
  | set p => intro _ c e h; obtain ⟨x, t, _, _, rfl⟩ := mem_run_set.1 h; rfl
  | wordBoundary => intro _ c e h; rw [(mem_run_wordBoundary.1 h).1]
  | seq a b iha ihb =>
    intro hg c e h
    simp only [Regex.hasGroup, Bool.or_eq_false_iff] at hg
    obtain ⟨d, hd, he⟩ := mem_run_seq.1 h
    rw [ihb hg.2 d e he, iha hg.1 c d hd]
  | alt a b iha ihb =>
    intro hg c e h
    simp only [Regex.hasGroup, Bool.or_eq_false_iff] at hg
    rcases mem_run_alt.1 h with h | h
    · exact iha hg.1 c e h
    · exact ihb hg.2 c e h
  | star p => intro _ c e h; obtain ⟨xs, _, _, h3⟩ := mem_run_star.1 h; rw [h3]
  | opt a ih =>
    intro hg c e h
    simp only [Regex.hasGroup] at hg
    rcases mem_run_opt.1 h with h | h
    · exact ih hg c e h
    · rw [h]
  | group n a _ => intro hg; simp [Regex.hasGroup] at hg

/-- Every match the loop iterates over was found by an attempt at some offset of the text. -/
theorem scanMatches_mem {re : Regex} {m : MatchResult} : ∀ {fuel : Nat} {s : Str},
    m ∈ scanMatches re fuel s → ∃ pre t l n, s = pre ++ t ∧ matchHere re l n t = some m := by
  intro fuel
  induction fuel with
  | zero => intro s h; simp [scanMatches] at h
  | succ fuel ih =>
    intro s h
    simp only [scanMatches] at h
    split at h
    · simp at h
    · rename_i m0 hs
      obtain ⟨a, b, h1, h2, _⟩ := searchFrom_some hs
      rcases List.mem_cons.1 h with rfl | h
      · exact ⟨a, b, _, _, h1, h2⟩
      · obtain ⟨pre, t, l, n, h3, h4⟩ := ih h
        obtain ⟨_, _, _, h5, _⟩ := matchHere_some h2
        exact ⟨a ++ m0.whole ++ pre, t, l, n, by rw [h1, h5, h3]; simp, h4⟩

/-- The first character of a match is the first character of the text it was found at. -/
theorem whole_head {re : Regex} {l : Bool} {n : Nat} {x : Char} {t : Str} {m : MatchResult}
    (hre : 1 ≤ re.minLen) (h : matchHere re l n (x :: t) = some m) : ∃ u, m.whole = x :: u := by
  obtain ⟨_, _, _, h1, h2, h3, _⟩ := matchHere_some h
  cases hw : m.whole with
  | nil => rw [hw] at h2; simp at h2; omega
  | cons y u =>
    rw [hw] at h1
    simp only [List.cons_append, List.cons.injEq] at h1
    exact ⟨u, by rw [h1.1]⟩

theorem mem_run_boundary_lit {w : Str} {r : Regex} {c e : Cursor}
    (h : e ∈ run (.seq .wordBoundary (.seq (lit w) r)) c) : ∃ t, c.rest = w ++ t := by
  obtain ⟨d, hd, h2⟩ := mem_run_seq.1 h
  obtain ⟨hdc, _⟩ := mem_run_wordBoundary.1 hd
  obtain ⟨t, ht, _⟩ := mem_run_lit_seq.1 h2
  exact ⟨t, by rw [← hdc]; exact ht⟩

/-- No record of the first loop of `checkLineForVulnerabilities` has the subject "Array access". -/
theorem vulnerableFindings_subject {line : Str} {lineNumber : Nat} {f : VulnerabilityInfo}
    (hf : f ∈ vulnerableFindings line lineNumber) : f.function ≠ "Array access".toList := by
  simp only [vulnerableFindings, List.mem_flatMap, List.mem_map] at hf
  obtain ⟨pattern, hp, m, hm, rfl⟩ := hf
  obtain ⟨pre, t, l, n, _, hmatch⟩ := scanMatches_mem hm
  obtain ⟨e, _, hmem, _, _, _, _, hg, _⟩ := matchHere_some hmatch
  simp only [vulnerablePatterns, List.mem_cons, List.mem_singleton, List.not_mem_nil,
    or_false] at hp
  have key : ∀ (c0 : Char) (w : Str), c0 ≠ 'A' → pattern.1.hasGroup = false →
      1 ≤ pattern.1.minLen → t = c0 :: w →
      (vulnerableInfo line lineNumber pattern.2 m).function ≠ "Array access".toList := by
    intro c0 w hc0 hng hmin ht
    have hcaps : m.groups = [] := by rw [hg, run_caps _ hng _ _ hmem]
    rw [ht] at hmatch
    obtain ⟨u, hu⟩ := whole_head hmin hmatch
    simp only [vulnerableInfo, MatchResult.sub, hcaps, List.find?_nil, Option.map_none', hu]
    intro h
    have : c0 = 'A' := by
      have := congrArg List.head? h
      simpa using this
    exact hc0 this
  rcases hp with rfl | rfl | rfl | rfl | rfl | rfl
  · obtain ⟨name, sp, t', hn, _, _, _, hcaps⟩ := unsafeCall_mem hmem
    have hsub : m.sub 1 = some name := sub_one_of_groups (by rw [hg, hcaps])
    simp only [vulnerableInfo, hsub]
    intro h
    rw [h] at hn
    revert hn
    decide
  · obtain ⟨u, hu⟩ := mem_run_boundary_lit (w := "char".toList) hmem
    exact key 'c' _ (by decide) (by decide) (by decide) hu
  · obtain ⟨u, hu⟩ := mem_run_boundary_lit (w := "memcpy".toList) hmem
    exact key 'm' _ (by decide) (by decide) (by decide) hu
  · obtain ⟨u, hu⟩ := mem_run_boundary_lit (w := "new".toList) hmem
    exact key 'n' _ (by decide) (by decide) (by decide) hu
  · obtain ⟨u, hu⟩ := mem_run_boundary_lit (w := "std::copy".toList) hmem
    exact key 's' _ (by decide) (by decide) (by decide) hu
  · obtain ⟨u, hu, _⟩ := mem_run_lit_seq (w := "for".toList) |>.1 hmem
    exact key 'f' _ (by decide) (by decide) (by decide) hu

/-- Every record of the second loop of `checkLineForVulnerabilities` comes
from a bracketed identifier of the line. -/
theorem arrayFindings_sound {line : Str} {lineNumber : Nat} {f : VulnerabilityInfo}
    (hf : f ∈ arrayFindings line lineNumber) :
    ∃ pre x post, line = pre ++ '[' :: x ++ ']' :: post ∧ isIdentifier x = true ∧
      f = arrayAccessInfo lineNumber x := by
  simp only [arrayFindings, List.mem_flatMap] at hf
  obtain ⟨m, hm, hf⟩ := hf
  obtain ⟨pre, t, l, n, hline, hmatch⟩ := scanMatches_mem hm
  obtain ⟨e, _, hmem, _, _, _, _, hg, _⟩ := matchHere_some hmatch
  obtain ⟨y, t', hs, _, _, _, hcaps⟩ := arrayAccess_mem hmem
  have hstr : m.str 1 = y := str_one_of_groups (by rw [hg, hcaps])
  simp only [arrayBody, hstr, regex_match_identifier] at hf
  split at hf
  · rename_i hid
    simp only [List.nil_append, List.mem_singleton] at hf
    exact ⟨pre, y, t', by rw [hline, hs]; simp, hid, hf⟩
  · simp at hf

/-- C10: `checkLineForVulnerabilities` returns, and every record with subject
"Array access" among those it appends for a line has the description
"Unchecked array access with variable: x" (and severity Medium, and the
line's number) for an identifier `x` such that `[x]` occurs in the line; in
particular, a line in which no bracketed expression holds a single
identifier (as `arr[i+1]`, `arr[0]`, `arr[ i ]`) yields no such record. -/
theorem array_access_only_identifiers (line : Str) (lineNumber : Nat)
    (vs : List VulnerabilityInfo) :
    ∃ new, checkLineForVulnerabilities line lineNumber vs = some (vs ++ new) ∧
      (∀ f ∈ new, f.function = "Array access".toList →
        ∃ pre x post, line = pre ++ '[' :: x ++ ']' :: post ∧ isIdentifier x = true ∧
          f = arrayAccessInfo lineNumber x) ∧
      ((∀ pre x post, line = pre ++ '[' :: x ++ ']' :: post → isIdentifier x = false) →
        ∀ f ∈ new, f.function ≠ "Array access".toList) := by
  have h1 : ∀ f ∈ lineOutput line lineNumber, f.function = "Array access".toList →
      ∃ pre x post, line = pre ++ '[' :: x ++ ']' :: post ∧ isIdentifier x = true ∧
        f = arrayAccessInfo lineNumber x := by
    intro f hf hsub
    rcases List.mem_append.1 hf with hf | hf
    · exact absurd hsub (vulnerableFindings_subject hf)
    · exact arrayFindings_sound hf
  refine ⟨lineOutput line lineNumber, checkLine_eq line lineNumber vs, h1, ?_⟩
  intro hno f hf hsub
  obtain ⟨pre, x, post, hl, hx, _⟩ := h1 f hf hsub
  rw [hno pre x post hl] at hx
  cases hx

/-- The lines `x = arr[i+1];`, `x = arr[0];` and `x = arr[ i ];` yield no record. -/
theorem array_access_examples :
    checkLineForVulnerabilities "x = arr[i+1];".toList 1 [] = some [] ∧
    checkLineForVulnerabilities "x = arr[0];".toList 1 [] = some [] ∧
    checkLineForVulnerabilities "x = arr[ i ];".toList 1 [] = some [] := by
  decide

/-- The method `runFullAnalysis` on a file that opens: the three passes append
their records in turn and `printResults` reports the collection. -/
theorem runFullAnalysis_eq {d : BufferOverflowDetector} {w : World} {content : Str}
    (hopen : w.files d.fileName = some content) :
    runFullAnalysis d w =
      some ({ d with vulnerabilities := d.vulnerabilities ++ fullFindings content },
        printResults { d with vulnerabilities := d.vulnerabilities ++ fullFindings content } w) := by
  have h1 : analyze d w =
      some (true, { d with vulnerabilities := d.vulnerabilities ++ linesOutput (getlines content) 0 },
        w) := by
    simp [analyze, hopen, analyzeLines_eq]
  have h2 := @detectLoopBoundaries_eq
    { d with vulnerabilities := d.vulnerabilities ++ linesOutput (getlines content) 0 } w content
    hopen
  have h3 := @analyzeFunctionCalls_eq
    { d with vulnerabilities :=
        d.vulnerabilities ++ linesOutput (getlines content) 0 ++ loopFindings content }
    w content hopen
  simp only [runFullAnalysis, h1, Option.some_bind, Bool.not_true, Bool.false_eq_true, if_false,
    h2, h3, Option.map_some']
  simp only [fullFindings, List.append_assoc]

/-- A match the loop iterates over lies inside the text, and is at least `minLen` long. -/
theorem scanMatches_bound {re : Regex} {m : MatchResult} : ∀ {fuel : Nat} {s : Str},
    m ∈ scanMatches re fuel s → m.position + m.length ≤ s.length ∧ re.minLen ≤ m.length := by
  intro fuel
  induction fuel with
  | zero => intro s h; simp [scanMatches] at h
  | succ fuel ih =>
    intro s h
    simp only [scanMatches] at h
    split at h
    · simp at h
    · rename_i m0 hs
      obtain ⟨a, b, h1, h2, _⟩ := searchFrom_some hs
      obtain ⟨_, _, _, h3, h4, h5, h6, _⟩ := matchHere_some h2
      have hlen : s.length = a.length + m0.whole.length + m0.suffix.length := by
        rw [h1, h3]; simp; omega
      rcases List.mem_cons.1 h with rfl | h
      · exact ⟨by omega, h5⟩
      · obtain ⟨h7, h8⟩ := ih h
        exact ⟨by omega, h8⟩

theorem getlinesAux_pos : ∀ (s cur : Str), cur ≠ [] → 1 ≤ (getlinesAux cur s).length := by
  intro s
  induction s with
  | nil => intro cur h; simp [getlinesAux, h]
  | cons c t ih =>
    intro cur h
    simp only [getlinesAux]
    split
    · simp
    · exact ih _ (by simp)

theorem getlinesAux_count : ∀ (a cur : Str) (c : Char) (r : Str),
    a.count '\n' + 1 ≤ (getlinesAux cur (a ++ c :: r)).length := by
  intro a
  induction a with
  | nil =>
    intro cur c r
    simp only [List.nil_append, getlinesAux, List.count_nil, Nat.zero_add]
    split
    · simp
    · exact getlinesAux_pos _ _ (by simp)
  | cons x a ih =>
    intro cur c r
    simp only [List.cons_append, getlinesAux]
    split
    · rename_i hx
      subst hx
      have := ih [] c r
      simp only [List.length_cons, List.count_cons_self, List.append_eq]
      omega
    · rename_i hx
      have := ih (cur ++ [x]) c r
      rw [List.count_cons_of_ne (Ne.symm hx)]
      simpa only [List.append_eq] using this

/-- The line counted for an offset inside the file is one of the lines of the file. -/
theorem count_newlines_le {content : Str} {p : Nat} (hp : p < content.length) :
    (content.take p).count '\n' + 1 ≤ (getlines content).length := by
  have hsplit : content = content.take p ++ content.drop p := (List.take_append_drop p content).symm
  cases hd : content.drop p with
  | nil =>
    have := congrArg List.length hd
    simp at this
    omega
  | cons c r =>
    rw [hd] at hsplit
    have := getlinesAux_count (content.take p) [] c r
    rw [← hsplit] at this
    exact this

theorem mem_vulnerableFindings {line : Str} {k : Nat} {f : VulnerabilityInfo}
    (hf : f ∈ vulnerableFindings line k) :
    ∃ pattern ∈ vulnerablePatterns, ∃ m ∈ scanMatches pattern.1 (line.length + 1) line,
      f = vulnerableInfo line k pattern.2 m := by
  simp only [vulnerableFindings, List.mem_flatMap, List.mem_map] at hf
  obtain ⟨pattern, hp, m, hm, rfl⟩ := hf
  exact ⟨pattern, hp, m, hm, rfl⟩

theorem mem_loopFindings {content : Str} {f : VulnerabilityInfo} (hf : f ∈ loopFindings content) :
    ∃ m ∈ scanMatches loopRegex (content.length + 1) content,
      f = loopBoundaryInfo (matchLine content m) := by
  simp only [loopFindings, List.mem_flatMap] at hf
  obtain ⟨m, hm, hf⟩ := hf
  refine ⟨m, hm, ?_⟩
  simp only [loopBoundaryBody] at hf
  split at hf
  · split at hf
    · simpa [loopBoundaryInfo, matchLine] using hf
    · simp at hf
  · simp at hf

theorem mem_functionFindings {content : Str} {f : VulnerabilityInfo}
    (hf : f ∈ functionFindings content) :
    ∃ m ∈ scanMatches funcRegex (content.length + 1) content,
      f = functionInfo (m.str 2) (matchLine content m) := by
  simp only [functionFindings, List.mem_flatMap] at hf
  obtain ⟨m, hm, hf⟩ := hf
  refine ⟨m, hm, ?_⟩
  simp only [functionCallBody] at hf
  split at hf
  · split at hf
    · split at hf
      · simpa [functionInfo, matchLine] using hf
      · simp at hf
    · simp at hf
  · simp at hf

theorem lineOutput_lineNumber {line : Str} {k : Nat} {f : VulnerabilityInfo}
    (hf : f ∈ lineOutput line k) : f.lineNumber = k := by
  rcases List.mem_append.1 hf with hf | hf
  · obtain ⟨_, _, _, _, rfl⟩ := mem_vulnerableFindings hf
    rfl
  · obtain ⟨_, _, _, _, _, rfl⟩ := arrayFindings_sound hf
    rfl

theorem linesOutput_lineNumber {f : VulnerabilityInfo} : ∀ {lines : List Str} {n : Nat},
    f ∈ linesOutput lines n → n + 1 ≤ f.lineNumber ∧ f.lineNumber ≤ n + lines.length := by
  intro lines
  induction lines with
  | nil => intro n h; simp [linesOutput] at h
  | cons line more ih =>
    intro n h
    simp only [linesOutput, List.mem_append] at h
    rcases h with h | h
    · rw [lineOutput_lineNumber h]
      simp
    · obtain ⟨h1, h2⟩ := ih h
      simp only [List.length_cons]
      omega

theorem matchLine_range {re : Regex} {content : Str} {m : MatchResult} {fuel : Nat}
    (hre : 1 ≤ re.minLen) (hm : m ∈ scanMatches re fuel content) :
    1 ≤ matchLine content m ∧ matchLine content m ≤ (getlines content).length := by
  obtain ⟨h1, h2⟩ := scanMatches_bound hm
  exact ⟨by simp [matchLine], count_newlines_le (by omega)⟩

/-- C11: for every file that opens, `runFullAnalysis` returns, and every
record it appends (from the line pass, the loop-boundary pass and the
function-signature pass) has a line number that is at least 1 and at most the
number of lines of the file. -/
theorem line_numbers_in_range (d : BufferOverflowDetector) (w : World) (content : Str)
    (hopen : w.files d.fileName = some content) :
    ∃ new w',
      runFullAnalysis d w =
        some ({ d with vulnerabilities := d.vulnerabilities ++ new }, w') ∧
      ∀ f ∈ new, 1 ≤ f.lineNumber ∧ f.lineNumber ≤ (getlines content).length := by
  refine ⟨fullFindings content, _, runFullAnalysis_eq hopen, ?_⟩
  intro f hf
  simp only [fullFindings, List.mem_append] at hf
  rcases hf with (hf | hf) | hf
  · have := linesOutput_lineNumber hf
    omega
  · obtain ⟨m, hm, rfl⟩ := mem_loopFindings hf
    exact matchLine_range loopRegex_minLen hm
  · obtain ⟨m, hm, rfl⟩ := mem_functionFindings hf
    exact matchLine_range funcRegex_minLen hm

/-- C11 (witness): the file `twoLoopsFile`, of three lines. -/
theorem line_numbers_in_range_witness :
    ∃ new w',
      runFullAnalysis (BufferOverflowDetector.new "a.cpp".toList)
        (World.single "a.cpp".toList twoLoopsFile) =
        some ({ BufferOverflowDetector.new "a.cpp".toList with
                vulnerabilities :=
                  (BufferOverflowDetector.new "a.cpp".toList).vulnerabilities ++ new }, w') ∧
      ∀ f ∈ new, 1 ≤ f.lineNumber ∧ f.lineNumber ≤ (getlines twoLoopsFile).length :=
  line_numbers_in_range (BufferOverflowDetector.new "a.cpp".toList)
    (World.single "a.cpp".toList twoLoopsFile) twoLoopsFile (by decide)

theorem pairwise_of_const {l : List VulnerabilityInfo} {k : Nat}
    (h : ∀ f ∈ l, f.lineNumber = k) :
    List.Pairwise (fun a b => a.lineNumber ≤ b.lineNumber) l := by
  induction l with
  | nil => exact List.Pairwise.nil
  | cons x l ih =>
    refine List.Pairwise.cons ?_ (ih fun f hf => h f (List.mem_cons_of_mem _ hf))
    intro b hb
    rw [h x (List.mem_cons_self _ _), h b (List.mem_cons_of_mem _ hb)]

theorem linesOutput_pairwise : ∀ (lines : List Str) (n : Nat),
    List.Pairwise (fun a b => a.lineNumber ≤ b.lineNumber) (linesOutput lines n) := by
  intro lines
  induction lines with
  | nil => intro n; exact List.Pairwise.nil
  | cons line more ih =>
    intro n
    simp only [linesOutput]
    refine List.pairwise_append.2 ⟨pairwise_of_const fun f hf => lineOutput_lineNumber hf,
      ih (n + 1), ?_⟩
    intro a ha b hb
    rw [lineOutput_lineNumber ha]
    exact (linesOutput_lineNumber hb).1.trans' (Nat.le_succ _)

theorem linesOutput_enumFrom : ∀ (lines : List Str) (n : Nat),
    linesOutput lines n = (lines.enumFrom n).flatMap fun p => lineOutput p.2 (p.1 + 1) := by
  intro lines
  induction lines with
  | nil => intro n; rfl
  | cons line more ih =>
    intro n
    simp only [linesOutput, List.enumFrom_cons, List.flatMap_cons, ih]

theorem arrayFindings_subject {line : Str} {k : Nat} {f : VulnerabilityInfo}
    (hf : f ∈ arrayFindings line k) : f.function = "Array access".toList := by
  obtain ⟨_, _, _, _, _, rfl⟩ := arrayFindings_sound hf
  rfl

/-- C12: for every file that opens, the collection `runFullAnalysis` builds
is the prior collection followed by three segments: the records of the line
pass, then the "Loop boundary" records in match order, then the records of
the function-signature pass in match order.  In the line-pass segment the
line numbers never decrease; the segment is made of one block for each line,
in file order, all of whose records carry that line's number, and each block
holds the records of the vulnerable-construct patterns in the order of
declaration of the patterns (in match order for one pattern), followed by
the "Array access" records of the line. -/
theorem findings_in_pass_order (d : BufferOverflowDetector) (w : World) (content : Str)
    (hopen : w.files d.fileName = some content) :
    (∃ w', runFullAnalysis d w =
      some ({ d with vulnerabilities := d.vulnerabilities ++
        (linesOutput (getlines content) 0 ++ loopFindings content ++ functionFindings content) },
        w')) ∧
    (loopFindings content =
        (scanMatches loopRegex (content.length + 1) content).flatMap
          (fun m => loopBoundaryBody content m []) ∧
      ∀ f ∈ loopFindings content, f.function = "Loop boundary".toList) ∧
    functionFindings content =
      (scanMatches funcRegex (content.length + 1) content).flatMap
        (fun m => functionCallBody content m []) ∧
    List.Pairwise (fun a b => a.lineNumber ≤ b.lineNumber) (linesOutput (getlines content) 0) ∧
    linesOutput (getlines content) 0 =
      ((getlines content).enum.flatMap fun p => lineOutput p.2 (p.1 + 1)) ∧
    ∀ line k,
      lineOutput line k =
        (vulnerablePatterns.flatMap fun pattern =>
          (scanMatches pattern.1 (line.length + 1) line).map (vulnerableInfo line k pattern.2))
          ++ arrayFindings line k ∧
      (∀ f ∈ lineOutput line k, f.lineNumber = k) ∧
      (∀ f ∈ arrayFindings line k, f.function = "Array access".toList) ∧
      ∀ f ∈ vulnerableFindings line k, f.function ≠ "Array access".toList := by
  refine ⟨⟨_, runFullAnalysis_eq hopen⟩, ⟨rfl, ?_⟩, rfl, linesOutput_pairwise _ _,
    linesOutput_enumFrom _ _, ?_⟩
  · intro f hf
    obtain ⟨m, _, rfl⟩ := mem_loopFindings hf
    rfl
  · intro line k
    exact ⟨rfl, fun f hf => lineOutput_lineNumber hf, fun f hf => arrayFindings_subject hf,
      fun f hf => vulnerableFindings_subject hf⟩

/-- C12 (witness): the file `twoLoopsFile`. -/
theorem findings_in_pass_order_witness :
    (∃ w', runFullAnalysis (BufferOverflowDetector.new "a.cpp".toList)
        (World.single "a.cpp".toList twoLoopsFile) =
      some ({ BufferOverflowDetector.new "a.cpp".toList with
        vulnerabilities := (BufferOverflowDetector.new "a.cpp".toList).vulnerabilities ++
          (linesOutput (getlines twoLoopsFile) 0 ++ loopFindings twoLoopsFile ++
            functionFindings twoLoopsFile) }, w')) ∧
    (loopFindings twoLoopsFile =
        (scanMatches loopRegex (twoLoopsFile.length + 1) twoLoopsFile).flatMap
          (fun m => loopBoundaryBody twoLoopsFile m []) ∧
      ∀ f ∈ loopFindings twoLoopsFile, f.function = "Loop boundary".toList) ∧
    functionFindings twoLoopsFile =
      (scanMatches funcRegex (twoLoopsFile.length + 1) twoLoopsFile).flatMap
        (fun m => functionCallBody twoLoopsFile m []) ∧
    List.Pairwise (fun a b => a.lineNumber ≤ b.lineNumber)
      (linesOutput (getlines twoLoopsFile) 0) ∧
    linesOutput (getlines twoLoopsFile) 0 =
      ((getlines twoLoopsFile).enum.flatMap fun p => lineOutput p.2 (p.1 + 1)) ∧
    ∀ line k,
      lineOutput line k =
        (vulnerablePatterns.flatMap fun pattern =>
          (scanMatches pattern.1 (line.length + 1) line).map (vulnerableInfo line k pattern.2))
          ++ arrayFindings line k ∧
      (∀ f ∈ lineOutput line k, f.lineNumber = k) ∧
      (∀ f ∈ arrayFindings line k, f.function = "Array access".toList) ∧
      ∀ f ∈ vulnerableFindings line k, f.function ≠ "Array access".toList :=
  findings_in_pass_order (BufferOverflowDetector.new "a.cpp".toList)
    (World.single "a.cpp".toList twoLoopsFile) twoLoopsFile (by decide)

/-- C13 (counterexample): for the file `void gets(char* p) { p[0] = 'a'; }`
the function-signature pass appends a record whose subject is exactly `gets`
and whose severity is Medium. -/
theorem function_named_gets_is_medium :
    findings (runFullAnalysis (BufferOverflowDetector.new "a.cpp".toList)
      (World.single "a.cpp".toList getsFunctionFile)) =
      some [{ function := "gets".toList, lineNumber := 1,
              description := "Unsafe C string function in context: ".toList ++ getsFunctionFile,
              severity := "High".toList },
            { function := "gets".toList, lineNumber := 1,
              description :=
                "Function with pointer/array parameters may have unchecked writes".toList,
              severity := "Medium".toList }] := by
  decide

theorem vulnerableInfo_severity (line : Str) (k : Nat) (desc : Str) (m : MatchResult) :
    (vulnerableInfo line k desc m).severity =
      if (vulnerableInfo line k desc m).function = "strcpy".toList ∨
          (vulnerableInfo line k desc m).function = "gets".toList then "High".toList
      else "Medium".toList := by
  simp only [vulnerableInfo]

theorem lineOutput_severity {line : Str} {k : Nat} {f : VulnerabilityInfo}
    (hf : f ∈ lineOutput line k) :
    f.severity =
      if f.function = "strcpy".toList ∨ f.function = "gets".toList then "High".toList
      else "Medium".toList := by
  rcases List.mem_append.1 hf with hf | hf
  · obtain ⟨_, _, _, _, rfl⟩ := mem_vulnerableFindings hf
    exact vulnerableInfo_severity _ _ _ _
  · obtain ⟨_, x, _, _, _, rfl⟩ := arrayFindings_sound hf
    have hne : ¬ ("Array access".toList = "strcpy".toList ∨
        "Array access".toList = "gets".toList) := by decide
    exact (if_neg hne).symm

theorem linesOutput_severity {f : VulnerabilityInfo} : ∀ {lines : List Str} {n : Nat},
    f ∈ linesOutput lines n →
      f.severity =
        if f.function = "strcpy".toList ∨ f.function = "gets".toList then "High".toList
        else "Medium".toList := by
  intro lines
  induction lines with
  | nil => intro n h; simp [linesOutput] at h
  | cons line more ih =>
    intro n h
    simp only [linesOutput, List.mem_append] at h
    rcases h with h | h
    · exact lineOutput_severity h
    · exact ih h

/-- C13 (amended): every record a pass appends has severity Medium or High
(never Low), and High only when its subject is exactly "strcpy" or exactly
"gets"; a record of the line pass with such a subject has severity High, and
the records of the loop-boundary pass and of the function-signature pass
have severity Medium whatever their subject. -/
theorem severity_by_pass (d : BufferOverflowDetector) (w : World) (content : Str)
    (hopen : w.files d.fileName = some content) :
    (∃ w', runFullAnalysis d w =
      some ({ d with vulnerabilities := d.vulnerabilities ++
        (linesOutput (getlines content) 0 ++ loopFindings content ++ functionFindings content) },
        w')) ∧
    (∀ f ∈ linesOutput (getlines content) 0 ++ loopFindings content ++ functionFindings content,
      (f.severity = "Medium".toList ∨ f.severity = "High".toList) ∧
      (f.severity = "High".toList → f.function = "strcpy".toList ∨ f.function = "gets".toList)) ∧
    (∀ f ∈ linesOutput (getlines content) 0,
      f.function = "strcpy".toList ∨ f.function = "gets".toList → f.severity = "High".toList) ∧
    ∀ f ∈ loopFindings content ++ functionFindings content, f.severity = "Medium".toList := by
  have hwhole : ∀ f ∈ loopFindings content ++ functionFindings content,
      f.severity = "Medium".toList := by
    intro f hf
    rcases List.mem_append.1 hf with hf | hf
    · obtain ⟨m, _, rfl⟩ := mem_loopFindings hf
      rfl
    · obtain ⟨m, _, rfl⟩ := mem_functionFindings hf
      rfl
  refine ⟨⟨_, runFullAnalysis_eq hopen⟩, ?_, ?_, hwhole⟩
  · intro f hf
    rw [List.append_assoc] at hf
    rcases List.mem_append.1 hf with hf | hf
    · have hs := linesOutput_severity hf
      by_cases hc : f.function = "strcpy".toList ∨ f.function = "gets".toList
      · rw [if_pos hc] at hs
        exact ⟨Or.inr hs, fun _ => hc⟩
      · rw [if_neg hc] at hs
        refine ⟨Or.inl hs, fun h => ?_⟩
        rw [hs] at h
        exact absurd h (by decide)
    · have hs := hwhole f hf
      refine ⟨Or.inl hs, fun h => ?_⟩
      rw [hs] at h
      exact absurd h (by decide)
  · intro f hf hc
    have hs := linesOutput_severity hf
    rw [if_pos hc] at hs
    exact hs

/-- C13 (witness): the file `getsFunctionFile`. -/
theorem severity_by_pass_witness :
    (∃ w', runFullAnalysis (BufferOverflowDetector.new "a.cpp".toList)
        (World.single "a.cpp".toList getsFunctionFile) =
      some ({ BufferOverflowDetector.new "a.cpp".toList with
        vulnerabilities := (BufferOverflowDetector.new "a.cpp".toList).vulnerabilities ++
          (linesOutput (getlines getsFunctionFile) 0 ++ loopFindings getsFunctionFile ++
            functionFindings getsFunctionFile) }, w')) ∧
    (∀ f ∈ linesOutput (getlines getsFunctionFile) 0 ++ loopFindings getsFunctionFile ++
        functionFindings getsFunctionFile,
      (f.severity = "Medium".toList ∨ f.severity = "High".toList) ∧
      (f.severity = "High".toList → f.function = "strcpy".toList ∨ f.function = "gets".toList)) ∧
    (∀ f ∈ linesOutput (getlines getsFunctionFile) 0,
      f.function = "strcpy".toList ∨ f.function = "gets".toList → f.severity = "High".toList) ∧
    ∀ f ∈ loopFindings getsFunctionFile ++ functionFindings getsFunctionFile,
      f.severity = "Medium".toList :=
  severity_by_pass (BufferOverflowDetector.new "a.cpp".toList)
    (World.single "a.cpp".toList getsFunctionFile) getsFunctionFile (by decide)

/-- The method `printResults` appends the lines `report` to `std::cout` and touches nothing else. -/
theorem printResults_eq (d : BufferOverflowDetector) (w : World) :
    printResults d w = { w with out := w.out ++ report d } := by
  simp only [printResults, report]
  split <;> simp

theorem report_length (d : BufferOverflowDetector) :
    (report d).length = if d.vulnerabilities = [] then 1 else d.vulnerabilities.length + 5 := by
  simp only [report, printResults]
  cases hv : d.vulnerabilities with
  | nil => simp
  | cons v vs => simp

theorem digitChar_ne_newline (k : Nat) : Nat.digitChar k ≠ '\n' := by
  by_cases hk : k < 16
  · interval_cases k <;> decide
  · have h : Nat.digitChar k = '*' := by
      unfold Nat.digitChar
      repeat rw [if_neg (by omega)]
    rw [h]
    decide

theorem toDigitsCore_no_newline : ∀ (fuel n : Nat) (acc : List Char),
    (∀ c ∈ acc, c ≠ '\n') → ∀ c ∈ Nat.toDigitsCore 10 fuel n acc, c ≠ '\n' := by
  intro fuel
  induction fuel with
  | zero => intro n acc h; simpa [Nat.toDigitsCore] using h
  | succ fuel ih =>
    intro n acc h
    simp only [Nat.toDigitsCore]
    have hacc : ∀ c ∈ Nat.digitChar (n % 10) :: acc, c ≠ '\n' := by
      intro c hc
      rcases List.mem_cons.1 hc with rfl | hc
      · exact digitChar_ne_newline _
      · exact h c hc
    split
    · exact hacc
    · exact ih _ _ hacc

/-- The decimal digits of a number hold no newline. -/
theorem showNat_no_newline (n : Nat) : '\n' ∉ showNat n := fun h =>
  toDigitsCore_no_newline (n + 1) n [] (by simp) _ h rfl

/-- A result line holds no newline when the fields of its record hold none. -/
theorem resultLine_no_newline {x : VulnerabilityInfo}
    (hx : '\n' ∉ x.severity ∧ '\n' ∉ x.function ∧ '\n' ∉ x.description) :
    '\n' ∉ resultLine x := by
  have hn := showNat_no_newline x.lineNumber
  have h1 : '\n' ∉ "Line ".toList := by decide
  have h2 : '\n' ∉ ": [".toList := by decide
  have h3 : '\n' ∉ "] ".toList := by decide
  have h4 : '\n' ∉ " - ".toList := by decide
  simp only [resultLine, List.mem_append, not_or]
  exact ⟨⟨⟨⟨⟨⟨⟨h1, hn⟩, h2⟩, hx.1⟩, h3⟩, hx.2.1⟩, h4⟩, hx.2.2⟩

/-- The lines of the report of a non-empty collection. -/
theorem report_cons (v : VulnerabilityInfo) (vs : List VulnerabilityInfo) (fileName : Str) :
    report { vulnerabilities := v :: vs, fileName := fileName } =
      ["Detected ".toList ++ showNat (v :: vs).length ++
          " potential buffer overflow vulnerabilities in ".toList ++ fileName ++ ":".toList,
        separatorLine] ++ (v :: vs).map resultLine ++
      [separatorLine,
       "Note: This is a static analysis and may produce false positives.".toList,
       "Each finding should be manually verified.".toList] := by
  simp only [report, printResults, List.isEmpty_cons, Bool.false_eq_true, if_false,
    List.nil_append]

/-- C14: on an empty collection `printResults` writes exactly the line
"No potential buffer overflow vulnerabilities detected."; on a collection of
`n ≥ 1` records it writes exactly `n + 5` lines: the header with the count
`n` in decimal and the file name, a separator line of 69 dashes, one line
`Line <line_number>: [<severity>] <subject> - <description>` for each record
in the order of the collection, the same separator line, and the two fixed
lines of the disclaimer.  Nothing is written to the error stream.  A line is
what is written up to one `std::endl`; when neither the file name nor a
field of a record holds a newline character, none of the `n + 5` lines holds
one, so that each is one line of text. -/
theorem printResults_lines (fileName : Str) (w : World) (v : VulnerabilityInfo)
    (vs : List VulnerabilityInfo) :
    printResults { vulnerabilities := [], fileName := fileName } w =
      { w with out := w.out ++
          ["No potential buffer overflow vulnerabilities detected.".toList] } ∧
    printResults { vulnerabilities := v :: vs, fileName := fileName } w =
      { w with out := w.out ++
          ["Detected ".toList ++ showNat (v :: vs).length ++
              " potential buffer overflow vulnerabilities in ".toList ++ fileName ++ ":".toList,
            separatorLine] ++
          (v :: vs).map (fun x =>
            "Line ".toList ++ showNat x.lineNumber ++ ": [".toList ++ x.severity ++ "] ".toList ++
              x.function ++ " - ".toList ++ x.description) ++
          [separatorLine,
           "Note: This is a static analysis and may produce false positives.".toList,
           "Each finding should be manually verified.".toList] } ∧
    (printResults { vulnerabilities := v :: vs, fileName := fileName } w).out.length =
      w.out.length + ((v :: vs).length + 5) ∧
    separatorLine = List.replicate 69 '-' ∧
    (∀ c ∈ separatorLine, c = '-') ∧
    (∀ n, String.mk (showNat n) = Nat.repr n) ∧
    printResults { vulnerabilities := v :: vs, fileName := fileName } w =
      { w with out := w.out ++ report { vulnerabilities := v :: vs, fileName := fileName } } ∧
    ('\n' ∉ fileName →
      (∀ x ∈ v :: vs, '\n' ∉ x.severity ∧ '\n' ∉ x.function ∧ '\n' ∉ x.description) →
      ∀ l ∈ report { vulnerabilities := v :: vs, fileName := fileName }, '\n' ∉ l) := by
  refine ⟨rfl, rfl, ?_, by decide, by decide, fun n => rfl, printResults_eq _ w, ?_⟩
  · simp only [printResults, List.isEmpty_cons, Bool.false_eq_true, if_false]
    simp
  · intro hf hx l hl
    rw [report_cons] at hl
    have hs : '\n' ∉ separatorLine := by decide
    have hd : '\n' ∉ "Detected ".toList := by decide
    have hp : '\n' ∉ " potential buffer overflow vulnerabilities in ".toList := by decide
    have hc : '\n' ∉ ":".toList := by decide
    have hn1 : '\n' ∉ "Note: This is a static analysis and may produce false positives.".toList := by
      decide
    have hn2 : '\n' ∉ "Each finding should be manually verified.".toList := by decide
    have hcount := showNat_no_newline (v :: vs).length
    rcases List.mem_append.1 hl with hl | hl
    · rcases List.mem_append.1 hl with hl | hl
      · rcases List.mem_cons.1 hl with rfl | hl
        · simp only [List.mem_append, not_or]
          exact ⟨⟨⟨⟨hd, hcount⟩, hp⟩, hf⟩, hc⟩
        · rw [List.mem_singleton.1 hl]
          exact hs
      · obtain ⟨x, hxm, rfl⟩ := List.mem_map.1 hl
        exact resultLine_no_newline (hx x hxm)
    · rcases List.mem_cons.1 hl with rfl | hl
      · exact hs
      · rcases List.mem_cons.1 hl with rfl | hl
        · exact hn1
        · rw [List.mem_singleton.1 hl]
          exact hn2

/-- C15 (counterexample): a fresh detector is run twice on the file
`gets(a);`; the first report counts one finding and lists it once, the
second report counts two and lists it twice. -/
theorem second_report_differs :
    outputs (runFullAnalysis (BufferOverflowDetector.new "a.cpp".toList)
      (World.single "a.cpp".toList oneCallFile)) =
      some ["Detected 1 potential buffer overflow vulnerabilities in a.cpp:".toList,
            separatorLine,
            "Line 1: [High] gets - Unsafe C string function in context: gets(a);".toList,
            separatorLine,
            "Note: This is a static analysis and may produce false positives.".toList,
            "Each finding should be manually verified.".toList] ∧
    outputs ((runFullAnalysis (BufferOverflowDetector.new "a.cpp".toList)
      (World.single "a.cpp".toList oneCallFile)).bind fun r => runFullAnalysis r.1 r.2) =
      some (["Detected 1 potential buffer overflow vulnerabilities in a.cpp:".toList,
            separatorLine,
            "Line 1: [High] gets - Unsafe C string function in context: gets(a);".toList,
            separatorLine,
            "Note: This is a static analysis and may produce false positives.".toList,
            "Each finding should be manually verified.".toList] ++
           ["Detected 2 potential buffer overflow vulnerabilities in a.cpp:".toList,
            separatorLine,
            "Line 1: [High] gets - Unsafe C string function in context: gets(a);".toList,
            "Line 1: [High] gets - Unsafe C string function in context: gets(a);".toList,
            separatorLine,
            "Note: This is a static analysis and may produce false positives.".toList,
            "Each finding should be manually verified.".toList]) := by
  decide

/-- C15 (amended): when `runFullAnalysis` is run twice in succession on the
same detector, with the file unchanged, both runs return; the collection is
not cleared in between, so the second run appends the same records once
more and its report is the report of the collection that holds them twice.
The second report is identical to the first exactly when the file yields no
record. -/
theorem second_run_appends_again (d : BufferOverflowDetector) (w : World) (content : Str)
    (hopen : w.files d.fileName = some content) :
    ∃ d1 w1 d2 w2,
      runFullAnalysis d w = some (d1, w1) ∧ runFullAnalysis d1 w1 = some (d2, w2) ∧
      d1.vulnerabilities = d.vulnerabilities ++ fullFindings content ∧
      d2.vulnerabilities = d.vulnerabilities ++ fullFindings content ++ fullFindings content ∧
      w1.out = w.out ++ report d1 ∧ w2.out = w1.out ++ report d2 ∧
      (report d2 = report d1 ↔ fullFindings content = []) := by
  have h1 := @runFullAnalysis_eq d w content hopen
  rw [printResults_eq] at h1
  have h2 := @runFullAnalysis_eq
    { d with vulnerabilities := d.vulnerabilities ++ fullFindings content }
    { w with out := w.out ++
        report { d with vulnerabilities := d.vulnerabilities ++ fullFindings content } }
    content hopen
  rw [printResults_eq] at h2
  refine ⟨_, _, _, _, h1, h2, rfl, rfl, rfl, rfl, ?_⟩
  constructor
  · intro h
    have hl := congrArg List.length h
    rw [report_length, report_length] at hl
    simp only [List.append_eq_nil, List.length_append] at hl
    by_contra hne
    have hpos : 0 < (fullFindings content).length := List.length_pos.2 hne
    rw [if_neg (fun h => hne h.1.2), if_neg (fun h => hne h.2)] at hl
    omega
  · intro h
    simp only [h, List.append_nil]

/-- C15 (witness): two runs on the file `gets(a);`. -/
theorem second_run_appends_again_witness :
    ∃ d1 w1 d2 w2,
      runFullAnalysis (BufferOverflowDetector.new "a.cpp".toList)
        (World.single "a.cpp".toList oneCallFile) = some (d1, w1) ∧
      runFullAnalysis d1 w1 = some (d2, w2) ∧
      d1.vulnerabilities =
        (BufferOverflowDetector.new "a.cpp".toList).vulnerabilities ++ fullFindings oneCallFile ∧
      d2.vulnerabilities =
        (BufferOverflowDetector.new "a.cpp".toList).vulnerabilities ++ fullFindings oneCallFile ++
          fullFindings oneCallFile ∧
      w1.out = (World.single "a.cpp".toList oneCallFile).out ++ report d1 ∧
      w2.out = w1.out ++ report d2 ∧
      (report d2 = report d1 ↔ fullFindings oneCallFile = []) :=
  second_run_appends_again (BufferOverflowDetector.new "a.cpp".toList)
    (World.single "a.cpp".toList oneCallFile) oneCallFile (by decide)

theorem detectLoopBoundaries_closed {d : BufferOverflowDetector} {w : World}
    (h : w.files d.fileName = none) : detectLoopBoundaries d w = some (d, w) := by
  simp only [detectLoopBoundaries, h]

theorem analyzeFunctionCalls_closed {d : BufferOverflowDetector} {w : World}
    (h : w.files d.fileName = none) : analyzeFunctionCalls d w = some (d, w) := by
  simp only [analyzeFunctionCalls, h]

theorem detector_append_nil (d : BufferOverflowDetector) :
    { d with vulnerabilities := d.vulnerabilities ++ [] } = d := by
  cases d
  simp

/-- C16: every scan pass only appends.  For every prior collection and every
input, `checkLineForVulnerabilities`, `analyze`, `detectLoopBoundaries` and
`analyzeFunctionCalls` return a collection of which the prior collection is
an unchanged prefix (and leave the file name alone); `printResults` only
adds lines to `std::cout`, and the collection after `runFullAnalysis`, which
ends with `printResults`, is again the prior collection followed by what the
passes appended. -/
theorem passes_only_append (line : Str) (lineNumber : Nat) (vs : List VulnerabilityInfo)
    (d : BufferOverflowDetector) (w : World) :
    (∃ new, checkLineForVulnerabilities line lineNumber vs = some (vs ++ new)) ∧
    (∃ new b w', analyze d w =
      some (b, { d with vulnerabilities := d.vulnerabilities ++ new }, w')) ∧
    (∃ new, detectLoopBoundaries d w =
      some ({ d with vulnerabilities := d.vulnerabilities ++ new }, w)) ∧
    (∃ new, analyzeFunctionCalls d w =
      some ({ d with vulnerabilities := d.vulnerabilities ++ new }, w)) ∧
    printResults d w = { w with out := w.out ++ report d } ∧
    ∃ new w', runFullAnalysis d w =
      some ({ d with vulnerabilities := d.vulnerabilities ++ new }, w') := by
  refine ⟨⟨_, checkLine_eq line lineNumber vs⟩, ?_, ?_, ?_, printResults_eq d w, ?_⟩
  · cases hopen : w.files d.fileName with
    | none =>
      refine ⟨[], false,
        { w with err := w.err ++ ["Error: Could not open file ".toList ++ d.fileName] }, ?_⟩
      rw [detector_append_nil]
      simp only [analyze, hopen]
    | some content =>
      exact ⟨linesOutput (getlines content) 0, true, w, by simp [analyze, hopen, analyzeLines_eq]⟩
  · cases hopen : w.files d.fileName with
    | none => exact ⟨[], by rw [detector_append_nil]; exact detectLoopBoundaries_closed hopen⟩
    | some content => exact ⟨_, detectLoopBoundaries_eq hopen⟩
  · cases hopen : w.files d.fileName with
    | none => exact ⟨[], by rw [detector_append_nil]; exact analyzeFunctionCalls_closed hopen⟩
    | some content => exact ⟨_, analyzeFunctionCalls_eq hopen⟩
  · cases hopen : w.files d.fileName with
    | none =>
      refine ⟨[],
        { w with err := w.err ++ ["Error: Could not open file ".toList ++ d.fileName] }, ?_⟩
      rw [detector_append_nil]
      simp [runFullAnalysis, analyze, hopen]
    | some content => exact ⟨_, _, runFullAnalysis_eq hopen⟩

theorem run_needs {c : Char} : ∀ (re : Regex), re.needs c = true → ∀ (cur e : Cursor),
    e ∈ run re cur → ∃ xs, cur.rest = xs ++ e.rest ∧ c ∈ xs := by
  intro re
  induction re with
  | eps => intro h; simp [Regex.needs] at h
  | chr a =>
    intro h cur e he
    simp only [Regex.needs, beq_iff_eq] at h
    obtain ⟨t, ht, rfl⟩ := mem_run_chr.1 he
    exact ⟨[a], by simp [ht], by simp [h]⟩
  | set p => intro h; simp [Regex.needs] at h
  | wordBoundary => intro h; simp [Regex.needs] at h
  | seq a b iha ihb =>
    intro h cur e he
    simp only [Regex.needs, Bool.or_eq_true] at h
    obtain ⟨d, hd, hde⟩ := mem_run_seq.1 he
    obtain ⟨xs, hxs, _⟩ := run_consumes a cur d hd
    obtain ⟨ys, hys, _⟩ := run_consumes b d e hde
    rcases h with h | h
    · obtain ⟨xs', hxs', hc⟩ := iha h cur d hd
      exact ⟨xs' ++ ys, by rw [hxs', hys]; simp, by simp [hc]⟩
    · obtain ⟨ys', hys', hc⟩ := ihb h d e hde
      exact ⟨xs ++ ys', by rw [hxs, hys']; simp, by simp [hc]⟩
  | alt a b iha ihb =>
    intro h cur e he
    simp only [Regex.needs, Bool.and_eq_true] at h
    rcases mem_run_alt.1 he with he | he
    · exact iha h.1 cur e he
    · exact ihb h.2 cur e he
  | star p => intro h; simp [Regex.needs] at h
  | opt a _ => intro h; simp [Regex.needs] at h
  | group n a ih =>
    intro h cur e he
    simp only [Regex.needs] at h
    obtain ⟨d, hd, rfl⟩ := mem_run_group.1 he
    exact ih h cur d hd

/-- A pattern that needs a character finds nothing in a text without it. -/
theorem search_needs {c : Char} {re : Regex} {s : Str} (hre : re.needs c = true)
    (hs : c ∉ s) : regex_search re s = none := by
  cases h : regex_search re s with
  | none => rfl
  | some m =>
    exfalso
    obtain ⟨a, b, h1, h2, _⟩ := searchFrom_some h
    obtain ⟨e, _, hmem, _⟩ := matchHere_some h2
    obtain ⟨xs, hxs, hc⟩ := run_needs re hre _ _ hmem
    simp only at hxs
    apply hs
    rw [h1, hxs]
    simp [hc]

theorem scanMatches_of_none {re : Regex} {s : Str} (h : regex_search re s = none)
    (fuel : Nat) : scanMatches re fuel s = [] := by
  cases fuel with
  | zero => rfl
  | succ fuel => simp only [scanMatches, h]

theorem getlinesAux_mem {line : Str} : ∀ {s cur : Str}, line ∈ getlinesAux cur s →
    ∀ c ∈ line, c ∈ cur ∨ c ∈ s := by
  intro s
  induction s with
  | nil =>
    intro cur h c hc
    simp only [getlinesAux] at h
    split at h
    · simp at h
    · simp only [List.mem_singleton] at h
      subst h
      exact Or.inl hc
  | cons x t ih =>
    intro cur h c hc
    simp only [getlinesAux] at h
    split at h
    · rcases List.mem_cons.1 h with rfl | h
      · exact Or.inl hc
      · rcases ih h c hc with h' | h'
        · simp at h'
        · exact Or.inr (List.mem_cons_of_mem _ h')
    · rcases ih h c hc with h' | h'
      · rcases List.mem_append.1 h' with h' | h'
        · exact Or.inl h'
        · simp only [List.mem_singleton] at h'
          subst h'
          exact Or.inr (List.mem_cons_self _ _)
      · exact Or.inr (List.mem_cons_of_mem _ h')

theorem getlines_mem {line content : Str} (h : line ∈ getlines content) :
    ∀ c ∈ line, c ∈ content := by
  intro c hc
  rcases getlinesAux_mem h c hc with h' | h'
  · simp at h'
  · exact h'

theorem vulnerablePatterns_need : ∀ p ∈ vulnerablePatterns,
    (p.1.needs '(' || p.1.needs '[') = true := by
  decide

/-- A line without `(` and `[` yields no record. -/
theorem lineOutput_nil {line : Str} (h1 : '(' ∉ line) (h2 : '[' ∉ line) (k : Nat) :
    lineOutput line k = [] := by
  simp only [lineOutput, List.append_eq_nil]
  constructor
  · simp only [vulnerableFindings, List.flatMap_eq_nil_iff, List.map_eq_nil_iff]
    intro p hp
    apply scanMatches_of_none
    have := vulnerablePatterns_need p hp
    simp only [Bool.or_eq_true] at this
    rcases this with h | h
    · exact search_needs h h1
    · exact search_needs h h2
  · simp only [arrayFindings]
    rw [scanMatches_of_none (search_needs (c := '[') (by decide) h2)]
    rfl

theorem linesOutput_nil : ∀ (lines : List Str) (n : Nat),
    (∀ line ∈ lines, '(' ∉ line ∧ '[' ∉ line) → linesOutput lines n = [] := by
  intro lines
  induction lines with
  | nil => intro n _; rfl
  | cons line more ih =>
    intro n h
    simp only [linesOutput]
    rw [lineOutput_nil (h line (List.mem_cons_self _ _)).1 (h line (List.mem_cons_self _ _)).2,
      ih (n + 1) fun l hl => h l (List.mem_cons_of_mem _ hl)]
    rfl

/-- A file without `(` and `[` yields no record in any pass. -/
theorem fullFindings_nil {content : Str} (h1 : '(' ∉ content) (h2 : '[' ∉ content) :
    fullFindings content = [] := by
  simp only [fullFindings, List.append_eq_nil]
  refine ⟨⟨?_, ?_⟩, ?_⟩
  · apply linesOutput_nil
    intro line hl
    exact ⟨fun h => h1 (getlines_mem hl _ h), fun h => h2 (getlines_mem hl _ h)⟩
  · simp only [loopFindings]
    rw [scanMatches_of_none (search_needs (c := '(') (by decide) h1)]
    rfl
  · simp only [functionFindings]
    rw [scanMatches_of_none (search_needs (c := '(') (by decide) h1)]
    rfl

/-- C17: for every file that opens and whose text contains neither `(` nor
`[`, `runFullAnalysis` on a fresh detector returns with the collection
empty, and `printResults` has written exactly the line
"No potential buffer overflow vulnerabilities detected.". -/
theorem no_bracket_no_findings (d : BufferOverflowDetector) (w : World) (content : Str)
    (hopen : w.files d.fileName = some content) (hfresh : d.vulnerabilities = [])
    (hparen : '(' ∉ content) (hbracket : '[' ∉ content) :
    runFullAnalysis d w =
      some ({ d with vulnerabilities := [] },
        { w with out := w.out ++
          ["No potential buffer overflow vulnerabilities detected.".toList] }) := by
  have h := runFullAnalysis_eq hopen
  rw [fullFindings_nil hparen hbracket, detector_append_nil] at h
  have hp : printResults d w = { w with out := w.out ++
      ["No potential buffer overflow vulnerabilities detected.".toList] } := by
    simp [printResults, hfresh]
  have hd : { d with vulnerabilities := [] } = d := by
    cases d
    simp only at hfresh
    simp [hfresh]
  rw [hp] at h
  rw [hd]
  exact h

/-- C17 (witness): the file that holds only `int x = 5;`. -/
theorem no_bracket_no_findings_witness :
    runFullAnalysis (BufferOverflowDetector.new "a.cpp".toList)
        (World.single "a.cpp".toList "int x = 5;".toList) =
      some ({ BufferOverflowDetector.new "a.cpp".toList with vulnerabilities := [] },
        { World.single "a.cpp".toList "int x = 5;".toList with
          out := (World.single "a.cpp".toList "int x = 5;".toList).out ++
            ["No potential buffer overflow vulnerabilities detected.".toList] }) :=
  no_bracket_no_findings (BufferOverflowDetector.new "a.cpp".toList)
    (World.single "a.cpp".toList "int x = 5;".toList) "int x = 5;".toList
    (by decide) (by decide) (by decide) (by decide)

/-- C18: when `main` is called with exactly one argument that names a file
that cannot be opened, `analyze` writes "Error: Could not open file <name>"
to the error stream and returns false; `runFullAnalysis` returns at once,
leaving the collection empty and `std::cout` as it was (no pass has appended
a record and `printResults` has written nothing); the exit status is 0. -/
theorem unopenable_file (prog name : Str) (w : World) (hclosed : w.files name = none) :
    analyze (BufferOverflowDetector.new name) w =
      some (false, BufferOverflowDetector.new name,
        { w with err := w.err ++ ["Error: Could not open file ".toList ++ name] }) ∧
    runFullAnalysis (BufferOverflowDetector.new name) w =
      some ({ vulnerabilities := [], fileName := name },
        { files := w.files, out := w.out,
          err := w.err ++ ["Error: Could not open file ".toList ++ name] }) ∧
    main prog [name] w =
      some (0, { files := w.files, out := w.out,
                 err := w.err ++ ["Error: Could not open file ".toList ++ name] }) := by
  have h1 : analyze (BufferOverflowDetector.new name) w =
      some (false, BufferOverflowDetector.new name,
        { w with err := w.err ++ ["Error: Could not open file ".toList ++ name] }) := by
    simp only [analyze, BufferOverflowDetector.new, hclosed]
  have h2 : runFullAnalysis (BufferOverflowDetector.new name) w =
      some ({ vulnerabilities := [], fileName := name },
        { files := w.files, out := w.out,
          err := w.err ++ ["Error: Could not open file ".toList ++ name] }) := by
    simp only [runFullAnalysis, h1, Option.some_bind, Bool.not_false, if_true]
    rfl
  refine ⟨h1, h2, ?_⟩
  simp only [main, h2, Option.map_some']

/-- C18 (witness): the program is asked for `b.cpp` where only `a.cpp` opens. -/
theorem unopenable_file_witness :
    analyze (BufferOverflowDetector.new "b.cpp".toList)
        (World.single "a.cpp".toList "int x = 5;".toList) =
      some (false, BufferOverflowDetector.new "b.cpp".toList,
        { World.single "a.cpp".toList "int x = 5;".toList with
          err := (World.single "a.cpp".toList "int x = 5;".toList).err ++
            ["Error: Could not open file ".toList ++ "b.cpp".toList] }) ∧
    runFullAnalysis (BufferOverflowDetector.new "b.cpp".toList)
        (World.single "a.cpp".toList "int x = 5;".toList) =
      some ({ vulnerabilities := [], fileName := "b.cpp".toList },
        { files := (World.single "a.cpp".toList "int x = 5;".toList).files,
          out := (World.single "a.cpp".toList "int x = 5;".toList).out,
          err := (World.single "a.cpp".toList "int x = 5;".toList).err ++
            ["Error: Could not open file ".toList ++ "b.cpp".toList] }) ∧
    main "detector".toList ["b.cpp".toList] (World.single "a.cpp".toList "int x = 5;".toList) =
      some (0, { files := (World.single "a.cpp".toList "int x = 5;".toList).files,
                 out := (World.single "a.cpp".toList "int x = 5;".toList).out,
                 err := (World.single "a.cpp".toList "int x = 5;".toList).err ++
                   ["Error: Could not open file ".toList ++ "b.cpp".toList] }) :=
  unopenable_file "detector".toList "b.cpp".toList
    (World.single "a.cpp".toList "int x = 5;".toList) (by decide)

theorem contextOf_eq (line : Str) (m : MatchResult) :
    contextOf line m = substr line (contextStart m) (contextLength line m) := rfl

theorem findFirstOf_bound {c : Char} : ∀ {s : Str} {pos e : Nat},
    findFirstOf c s pos = some e → pos ≤ e ∧ e < s.length := by
  intro s
  induction s with
  | nil => intro pos e h; simp [findFirstOf] at h
  | cons x t ih =>
    intro pos e h
    cases pos with
    | zero =>
      simp only [findFirstOf] at h
      split at h
      · cases h
        simp
      · simp only [Option.map_eq_some'] at h
        obtain ⟨e', he', rfl⟩ := h
        have := ih he'
        simp only [List.length_cons]
        omega
    | succ pos =>
      simp only [findFirstOf, Option.map_eq_some'] at h
      obtain ⟨e', he', rfl⟩ := h
      have := ih he'
      simp only [List.length_cons]
      omega

/-- C19: no substring extraction of the passes is out of range.  For every
line and every match of a vulnerable-construct pattern the loop of
`checkLineForVulnerabilities` finds, `contextStart` is at most the length of
the line (so `line.length() - contextStart` does not underflow) and the
checked `line.substr(contextStart, contextLength)` returns the excerpt; for
every file and every match of the function pattern the loop of
`analyzeFunctionCalls` finds, `funcStartPos` is formed without underflow and
lies inside the file, the closing brace found from it is not before it, and
the checked `content.substr(funcStartPos, funcEndPos - funcStartPos)`
returns the body; and the offset `matches.position()` that the whole-file
passes add to `content.begin()` to count newlines is at most the length of
the file. -/
theorem substr_in_bounds :
    (∀ (line : Str), ∀ pattern ∈ vulnerablePatterns,
      ∀ m ∈ scanMatches pattern.1 (line.length + 1) line,
        contextStart m ≤ line.length ∧
        substrChecked line (contextStart m) (contextLength line m) =
          some (contextOf line m)) ∧
    (∀ (content : Str), ∀ m ∈ scanMatches funcRegex (content.length + 1) content,
      1 ≤ m.position + m.length ∧ funcStartPos m < content.length ∧
      ∀ funcEndPos, findFirstOf '}' content (funcStartPos m) = some funcEndPos →
        funcStartPos m ≤ funcEndPos ∧ funcEndPos < content.length ∧
        substrChecked content (funcStartPos m) (funcEndPos - funcStartPos m) =
          some (substr content (funcStartPos m) (funcEndPos - funcStartPos m))) ∧
    (∀ (content : Str), ∀ re ∈ [loopRegex, funcRegex],
      ∀ m ∈ scanMatches re (content.length + 1) content, m.position ≤ content.length) := by
  refine ⟨?_, ?_, ?_⟩
  · intro line pattern _ m hm
    obtain ⟨h1, _⟩ := scanMatches_bound hm
    have hs : contextStart m ≤ line.length := by
      simp only [contextStart]
      split <;> omega
    exact ⟨hs, by simp only [substrChecked, hs, if_true, contextOf_eq]⟩
  · intro content m hm
    obtain ⟨h1, h2⟩ := scanMatches_bound hm
    have h3 : 1 ≤ m.length := Nat.le_trans funcRegex_minLen h2
    have hs : funcStartPos m < content.length := by
      simp only [funcStartPos]
      omega
    refine ⟨by omega, hs, ?_⟩
    intro e he
    obtain ⟨h4, h5⟩ := findFirstOf_bound he
    exact ⟨h4, h5, by simp only [substrChecked, Nat.le_of_lt hs, if_true]⟩
  · intro content re _ m hm
    obtain ⟨h1, _⟩ := scanMatches_bound hm
    omega

theorem scanPatterns_minLen : ∀ re ∈ scanPatterns, 1 ≤ re.minLen := by
  intro re h
  simp only [scanPatterns, List.mem_cons, List.mem_singleton, List.not_mem_nil, or_false] at h
  rcases h with rfl | rfl | rfl | rfl | rfl | rfl | rfl | rfl | rfl <;> decide

theorem search_suffix_lt {re : Regex} {s : Str} {m : MatchResult} (hre : 1 ≤ re.minLen)
    (h : regex_search re s = some m) : m.suffix.length < s.length := by
  obtain ⟨a, b, h1, h2, _⟩ := searchFrom_some h
  obtain ⟨_, _, _, h3, h4, h5, _⟩ := matchHere_some h2
  have : s.length = a.length + m.whole.length + m.suffix.length := by
    rw [h1, h3]; simp; omega
  omega

/-- With enough fuel the list of matches does not depend on the fuel. -/
theorem scanMatches_fuel {re : Regex} (hre : 1 ≤ re.minLen) : ∀ (f1 f2 : Nat) (s : Str),
    s.length < f1 → s.length < f2 → scanMatches re f1 s = scanMatches re f2 s := by
  intro f1
  induction f1 with
  | zero => intro f2 s h; omega
  | succ f1 ih =>
    intro f2 s h1 h2
    cases f2 with
    | zero => omega
    | succ f2 =>
      simp only [scanMatches]
      cases hs : regex_search re s with
      | none => rfl
      | some m =>
        have := search_suffix_lt hre hs
        simp only
        rw [ih f2 m.suffix (by omega) (by omega)]

/-- Every method of the detector returns on every input. -/
theorem methods_return (d : BufferOverflowDetector) (w : World) :
    (analyze d w).isSome = true ∧ (detectLoopBoundaries d w).isSome = true ∧
      (analyzeFunctionCalls d w).isSome = true ∧ (runFullAnalysis d w).isSome = true := by
  cases hopen : w.files d.fileName with
  | none =>
    rw [detectLoopBoundaries_closed hopen, analyzeFunctionCalls_closed hopen]
    simp [runFullAnalysis, analyze, hopen]
  | some content =>
    rw [detectLoopBoundaries_eq hopen, analyzeFunctionCalls_eq hopen, runFullAnalysis_eq hopen]
    simp [analyze, hopen, analyzeLines_eq]

/-- C20: every scanning loop terminates on every input.  Each of the six
vulnerable-construct patterns, the array-access pattern, the loop pattern and
the function-definition pattern matches only a non-empty text, so the text
left after a match is strictly shorter than the text searched; a loop over
such a pattern therefore returns whenever its fuel exceeds the length of the
text, with a result that does not depend on the fuel, and every method of
the detector returns on every input. -/
theorem scanning_loops_terminate :
    (∀ re ∈ scanPatterns, ∀ l n s m, matchHere re l n s = some m → 1 ≤ m.length) ∧
    (∀ re ∈ scanPatterns, ∀ s m, regex_search re s = some m →
      m.suffix.length < s.length) ∧
    (∀ re ∈ scanPatterns, ∀ (body : MatchResult → List VulnerabilityInfo →
        List VulnerabilityInfo) (s : Str) (st : List VulnerabilityInfo) (fuel : Nat),
      s.length < fuel →
        (scanLoop re body fuel s st).isSome = true ∧
        scanLoop re body fuel s st = scanLoop re body (s.length + 1) s st) ∧
    (∀ line lineNumber vs, (checkLineForVulnerabilities line lineNumber vs).isSome = true) ∧
    ∀ d w, (analyze d w).isSome = true ∧ (detectLoopBoundaries d w).isSome = true ∧
      (analyzeFunctionCalls d w).isSome = true ∧ (runFullAnalysis d w).isSome = true := by
  refine ⟨?_, ?_, ?_, ?_, ?_⟩
  · intro re hre l n s m hm
    obtain ⟨_, _, _, _, _, h, _⟩ := matchHere_some hm
    exact Nat.le_trans (scanPatterns_minLen re hre) h
  · intro re hre s m hm
    exact search_suffix_lt (scanPatterns_minLen re hre) hm
  · intro re hre body s st fuel hfuel
    have hmin := scanPatterns_minLen re hre
    rw [scanLoop_eq body hmin fuel s st hfuel,
      scanLoop_eq body hmin (s.length + 1) s st (Nat.lt_add_one _),
      scanMatches_fuel hmin fuel (s.length + 1) s hfuel (Nat.lt_add_one _)]
    exact ⟨rfl, rfl⟩
  · intro line lineNumber vs
    rw [checkLine_eq]
    rfl
  · exact methods_return

end BufferOverflow
